import Mathlib

/-!
Shallow embedding of `streamlit_app.py` (megastudy crawler) and proofs about it.

Pure string helpers are embedded at the level of `List Char`, wrapped into
`String` at the boundaries.  Python's `re.sub`/`re.search` calls are embedded by
deterministic scanners that implement the leftmost-match semantics of the
concrete patterns appearing in the source (`\s+`, `\n{3,}`, `\((\d+)\)`, the two
Content-Disposition patterns).  HTTP traffic is abstracted by oracle functions
(a `Portal` structure); everything downstream of the network boundary is
embedded faithfully.
-/

/-- Whitespace class used for Python's `\s` / `str.strip` (ASCII part). -/
def isPySpace (c : Char) : Bool :=
  c = ' ' || c = '\t' || c = '\n' || c = '\r' || c = Char.ofNat 11 || c = Char.ofNat 12

/-- Scanner state machine for `re.sub(r"\s+", " ", s)`: each maximal run of
whitespace becomes a single space.  The boolean records whether the previous
character was whitespace (run already emitted). -/
def cwGo : Bool → List Char → List Char
  | _, [] => []
  | inWs, c :: rest =>
    if isPySpace c then
      if inWs then cwGo true rest else ' ' :: cwGo true rest
    else
      c :: cwGo false rest

/-- `re.sub(r"\s+", " ", s)` on a character list. -/
def collapseWs (l : List Char) : List Char := cwGo false l

/-- Remove trailing characters satisfying `p` (right half of `str.strip`). -/
def dropWR (p : Char → Bool) : List Char → List Char
  | [] => []
  | c :: r =>
    let r' := dropWR p r
    if r' = [] && p c then [] else c :: r'

/-- `str.strip()` on a character list. -/
def pyStripList (l : List Char) : List Char := dropWR isPySpace (l.dropWhile isPySpace)

/-- `str.strip()` on strings. -/
def pyStrip (s : String) : String := String.mk (pyStripList s.data)

/-- Per-line normalization `re.sub(r"\s+", " ", ln).strip()`. -/
def cleanLn (l : List Char) : List Char := pyStripList (collapseWs l)

/-- Source `clean_spaces`: collapse whitespace runs and strip. -/
def clean_spaces (s : String) : String := String.mk (cleanLn s.data)

/-- Python `s.split("\n")` on character lists. -/
def splitNl : List Char → List (List Char)
  | [] => [[]]
  | c :: r =>
    if c = '\n' then [] :: splitNl r
    else
      match splitNl r with
      | [] => [[c]]
      | l :: ls => (c :: l) :: ls

/-- Join character-list lines with a separator (for `"\n".join` etc.). -/
def joinSep (sep : List Char) : List (List Char) → List Char
  | [] => []
  | [l] => l
  | l :: ls => l ++ sep ++ joinSep sep ls

/-- `"\n".join` on character-list lines. -/
def joinNl (ls : List (List Char)) : List Char := joinSep ['\n'] ls

/-- What a pending run of `k` newline characters flushes to under
`re.sub(r"\n{3,}", "\n\n", ·)`: runs of three or more become exactly two. -/
def nlFlush (k : Nat) : List Char :=
  if 3 ≤ k then ['\n', '\n'] else List.replicate k '\n'

/-- Scanner for `re.sub(r"\n{3,}", "\n\n", s)`; `k` counts the pending
newline run. -/
def nlGo (k : Nat) : List Char → List Char
  | [] => nlFlush k
  | c :: r =>
    if c = '\n' then nlGo (k + 1) r
    else nlFlush k ++ c :: nlGo 0 r

/-- `re.sub(r"\n{3,}", "\n\n", s)` on a character list. -/
def collapseNl3 (l : List Char) : List Char := nlGo 0 l

/-- Source `normalize_paragraphs`: per-line `re.sub(r"\s+"," ",ln).strip()`,
join with newlines, collapse `\n{3,}` to `\n\n`, strip the whole text. -/
def normalize_paragraphs (raw : String) : String :=
  let lines := (splitNl raw.data).map cleanLn
  let text := joinNl lines
  String.mk (pyStripList (collapseNl3 text))

/-- Leftmost search of `re.search(r"\((\d+)\)", s)`: at each `(`, take the
maximal digit run; the match succeeds iff it is nonempty and followed by `)`. -/
def searchParenDigits : List Char → Option (List Char)
  | [] => none
  | c :: rest =>
    if c = '(' then
      let ds := rest.takeWhile Char.isDigit
      match rest.drop ds.length with
      | ')' :: _ => if ds = [] then searchParenDigits rest else some ds
      | _ => searchParenDigits rest
    else searchParenDigits rest

/-- Source `extract_idx_from_onclick` (including the `onclick or ""` default for
a missing attribute). -/
def extract_idx_from_onclick (onclick : Option String) : Option String :=
  (searchParenDigits (onclick.getD "").data).map String.mk

/-- The apostrophe character (used by the `filename*=` pattern). -/
def squote : Char := Char.ofNat 39

/-- Hexadecimal digit value, as accepted by `urllib.parse.unquote`. -/
def hexVal (c : Char) : Option Nat :=
  if '0' ≤ c && c ≤ '9' then some (c.toNat - 48)
  else if 'a' ≤ c && c ≤ 'f' then some (c.toNat - 87)
  else if 'A' ≤ c && c ≤ 'F' then some (c.toNat - 55)
  else none

/-- Is `b` a UTF-8 continuation byte? -/
def isCont (b : Nat) : Bool := 0x80 ≤ b && b ≤ 0xBF

/-- The Unicode replacement character U+FFFD. -/
def replChar : Char := Char.ofNat 0xFFFD

/-- UTF-8 decoding with replacement characters for malformed input
(CPython's `errors="replace"`), with explicit fuel so it reduces in the kernel;
`fuel ≥ length` makes the fuel inexhaustible. -/
def utf8Go : Nat → List Nat → List Char
  | _, [] => []
  | 0, _ :: _ => []
  | fuel + 1, b :: rest =>
    if b < 0x80 then Char.ofNat b :: utf8Go fuel rest
    else if 0xC2 ≤ b && b ≤ 0xDF then
      match rest with
      | b1 :: r2 =>
        if isCont b1 then Char.ofNat ((b - 0xC0) * 0x40 + (b1 - 0x80)) :: utf8Go fuel r2
        else replChar :: utf8Go fuel rest
      | [] => [replChar]
    else if 0xE0 ≤ b && b ≤ 0xEF then
      match rest with
      | b1 :: b2 :: r3 =>
        if (if b = 0xE0 then 0xA0 ≤ b1 && b1 ≤ 0xBF
            else if b = 0xED then 0x80 ≤ b1 && b1 ≤ 0x9F
            else isCont b1) && isCont b2 then
          Char.ofNat ((b - 0xE0) * 0x1000 + (b1 - 0x80) * 0x40 + (b2 - 0x80)) :: utf8Go fuel r3
        else replChar :: utf8Go fuel rest
      | _ => replChar :: utf8Go fuel rest
    else if 0xF0 ≤ b && b ≤ 0xF4 then
      match rest with
      | b1 :: b2 :: b3 :: r4 =>
        if (if b = 0xF0 then 0x90 ≤ b1 && b1 ≤ 0xBF
            else if b = 0xF4 then 0x80 ≤ b1 && b1 ≤ 0x8F
            else isCont b1) && isCont b2 && isCont b3 then
          Char.ofNat ((b - 0xF0) * 0x40000 + (b1 - 0x80) * 0x1000 + (b2 - 0x80) * 0x40 + (b3 - 0x80))
            :: utf8Go fuel r4
        else replChar :: utf8Go fuel rest
      | _ => replChar :: utf8Go fuel rest
    else replChar :: utf8Go fuel rest

/-- UTF-8 decode a byte list with replacement. -/
def utf8DecodeR (bs : List Nat) : List Char := utf8Go bs.length bs

/-- `urllib.parse.unquote` core: maximal runs of `%XX` triples are decoded as a
byte sequence (jointly UTF-8 decoded); everything else passes through.  `buf`
holds the pending byte run; fuel ≥ length of the character list. -/
def uqGo : Nat → List Nat → List Char → List Char
  | _, buf, [] => utf8DecodeR buf
  | 0, buf, _ :: _ => utf8DecodeR buf
  | fuel + 1, buf, c :: rest =>
    if c = '%' then
      match rest with
      | a :: b :: rest2 =>
        match hexVal a, hexVal b with
        | some x, some y => uqGo fuel (buf ++ [16 * x + y]) rest2
        | _, _ => utf8DecodeR buf ++ '%' :: uqGo fuel [] rest
      | _ => utf8DecodeR buf ++ '%' :: uqGo fuel [] rest
    else utf8DecodeR buf ++ c :: uqGo fuel [] rest

/-- `urllib.parse.unquote` on strings. -/
def unquote (s : String) : String := String.mk (uqGo s.data.length [] s.data)

/-- Case-insensitive match of the literal `filename` at the head of a list
(the only letters affected by `re.I` in the Content-Disposition patterns). -/
def matchFilenameLit (l : List Char) : Option (List Char) :=
  match l with
  | c1 :: c2 :: c3 :: c4 :: c5 :: c6 :: c7 :: c8 :: rest =>
    if c1.toLower = 'f' && c2.toLower = 'i' && c3.toLower = 'l' && c4.toLower = 'e'
        && c5.toLower = 'n' && c6.toLower = 'a' && c7.toLower = 'm' && c8.toLower = 'e' then
      some rest
    else none
  | _ => none

/-- Attempt `filename\*\s*=\s*[^']+'[^']*'([^;]+)` at the head of the list;
returns the capture group. -/
def cdExtTry (l : List Char) : Option (List Char) :=
  match matchFilenameLit l with
  | none => none
  | some r1 =>
    match r1 with
    | '*' :: r2 =>
      match (r2.dropWhile isPySpace) with
      | '=' :: r3 =>
        match (r3.dropWhile isPySpace).takeWhile (fun c => c ≠ squote) with
        | [] => none
        | s1 :: seg1 =>
          match (r3.dropWhile isPySpace).drop (s1 :: seg1).length with
          | q1 :: r5 =>
            if q1 = squote then
              match r5.drop (r5.takeWhile (fun c => c ≠ squote)).length with
              | q2 :: r6 =>
                if q2 = squote then
                  match r6.takeWhile (fun c => c ≠ ';') with
                  | [] => none
                  | c :: cs => some (c :: cs)
                else none
              | [] => none
            else none
          | [] => none
      | _ => none
    | _ => none

/-- Leftmost `re.search` for the extended `filename*=` pattern. -/
def cdExtSearch : List Char → Option (List Char)
  | [] => none
  | c :: rest =>
    match cdExtTry (c :: rest) with
    | some cap => some cap
    | none => cdExtSearch rest

/-- Attempt `filename\s*=\s*"?([^";]+)"?` at the head of the list. -/
def cdPlainTry (l : List Char) : Option (List Char) :=
  match matchFilenameLit l with
  | none => none
  | some r1 =>
    match r1.dropWhile isPySpace with
    | '=' :: r2 =>
      match r2.dropWhile isPySpace with
      | '"' :: t =>
        match t.takeWhile (fun c => c ≠ '"' && c ≠ ';') with
        | [] => none
        | c :: cs => some (c :: cs)
      | r3 =>
        match r3.takeWhile (fun c => c ≠ '"' && c ≠ ';') with
        | [] => none
        | c :: cs => some (c :: cs)
    | _ => none

/-- Leftmost `re.search` for the plain `filename=` pattern. -/
def cdPlainSearch : List Char → Option (List Char)
  | [] => none
  | c :: rest =>
    match cdPlainTry (c :: rest) with
    | some cap => some cap
    | none => cdPlainSearch rest

/-- Source `filename_from_cd`: `None`/empty header gives `None`; the RFC 5987
extended form (percent-decoded) is preferred; otherwise the plain form. -/
def filename_from_cd (cd : Option String) : Option String :=
  match cd with
  | none => none
  | some s =>
    if s = "" then none
    else
      match cdExtSearch s.data with
      | some cap => some (unquote (String.mk cap))
      | none => (cdPlainSearch s.data).map String.mk

/-- The path-unsafe characters replaced by `safe_filename`. -/
def badChars : List Char := ['/', '\\', ':', '*', '?', '"', '<', '>', '|']

/-- Source `safe_filename`: replace each character of `badChars` by an
underscore (`str.replace` per character), then strip. -/
def safe_filename (name : String) : String :=
  String.mk (pyStripList
    (badChars.foldl (fun cs ch => cs.map (fun c => if c = ch then '_' else c)) name.data))

/-- `os.path.basename` on a URL path: the segment after the last slash. -/
def basenameOf (path : String) : String :=
  String.mk (path.data.foldl (fun acc c => if c = '/' then [] else acc ++ [c]) [])

/-- Filename selection of source `download_binary`: Content-Disposition first
(falsy result ignored), then the percent-decoded basename of the response URL
path, then the literal `"download.bin"`; the result is sanitized. -/
def download_binary_name (cd : Option String) (urlPath : String) : String :=
  let fname0 := filename_from_cd cd
  let fname :=
    match fname0 with
    | some f =>
      if f ≠ "" then f
      else
        let pathName := unquote (basenameOf urlPath)
        if pathName ≠ "" then pathName else "download.bin"
    | none =>
      let pathName := unquote (basenameOf urlPath)
      if pathName ≠ "" then pathName else "download.bin"
  safe_filename fname

/-- Modelled from the spec: the filename precedence of §4.3 — prefer the
Content-Disposition name, else the percent-decoded URL basename, else the
literal default; used only to compare with `download_binary_name`. -/
def specChooseName (cd : Option String) (urlPath : String) : String :=
  match filename_from_cd cd with
  | some f => f
  | none =>
    let pathName := unquote (basenameOf urlPath)
    if pathName ≠ "" then pathName else "download.bin"

/-- Python JSON values, as returned by `json.loads`. -/
inductive PyJson where
  | obj (kvs : List (String × PyJson))
  | arr (xs : List PyJson)
  | str (s : String)
  | num (n : Int)
  | bool (b : Bool)
  | null
deriving Repr

/-- Python truthiness of a JSON value (empty containers, `""`, `0`, `false`,
`None` are falsy). -/
def jsonTruthy : PyJson → Bool
  | .obj kvs => !kvs.isEmpty
  | .arr xs => !xs.isEmpty
  | .str s => s ≠ ""
  | .num n => n ≠ 0
  | .bool b => b
  | .null => false

/-- Source `parse_json_or_empty`, with `json.loads` abstracted as the `loads`
oracle: blank input gives `{}`; a parse failure is reported as a warning and
also gives `{}`. -/
def parse_json_or_empty (loads : String → Except String PyJson) (s : String) : PyJson :=
  let t := pyStrip s
  if t = "" then .obj []
  else
    match loads t with
    | .ok v => v
    | .error _ => .obj []

/-- Endpoint registry entry (URLs and referers of `ENDPOINTS`). -/
structure EndpointInfo where
  listUrl : String
  detailUrl : String
  referer : String
  viewpage : Option String
deriving Repr

/-- Base portal URL. -/
def BASE : String := "https://www.megastudy.net"

/-- Source `ENDPOINTS` registry (URL/referer part). -/
def ENDPOINTS : String → Option EndpointInfo
  | "입시 리포트" => some
      { listUrl := BASE ++ "/Entinfo/news/news_list_ax.asp"
        detailUrl := BASE ++ "/Entinfo/news/news_view_ax.asp"
        referer := BASE ++ "/Entinfo/news/news_list.asp"
        viewpage := none }
  | "입시 뉴스" => some
      { listUrl := BASE ++ "/Entinfo/ipsi_news/news_list_ax.asp"
        detailUrl := BASE ++ "/Entinfo/ipsi_news/news_view_ax.asp"
        referer := BASE ++ "/Entinfo/ipsi_news/news_list.asp"
        viewpage := none }
  | "교육기관발표자료" => some
      { listUrl := BASE ++ "/entinfo/g_archive/list_ax.asp"
        detailUrl := BASE ++ "/entinfo/g_archive/view_ax.asp"
        referer := BASE ++ "/entinfo/g_archive/list.asp"
        viewpage := some (BASE ++ "/entinfo/g_archive/view.asp") }
  | _ => none

/-- Referer of a source (`ENDPOINTS[source_name]["referer"]`). -/
def refererOf (sourceName : String) : String :=
  match ENDPOINTS sourceName with
  | some e => e.referer
  | none => ""

/-- Source `default_headers` for the currently selected source. -/
def default_headers (sourceName : String) : PyJson :=
  .obj
    [ ("User-Agent",
        .str "Mozilla/5.0 (Windows NT 10.0; Win64; x64) AppleWebKit/537.36 (KHTML, like Gecko) Chrome/139.0.0.0 Safari/537.36")
    , ("Accept", .str "text/html, */*; q=0.01")
    , ("X-Requested-With", .str "XMLHttpRequest")
    , ("Referer", .str (refererOf sourceName)) ]

/-- Crawl configuration captured by the run button (`S.config`). -/
structure AppConfig where
  source_name : String
  start_page : Nat
  end_page : Nat
  cookies : PyJson
  headers : PyJson
  verify_ssl : Bool
  prefetch : Bool
  max_prefetch_mb : Nat
  want_download : Bool
  ext_filter : String

/-- Python `x or y` on JSON values (used for `parse_json_or_empty(...) or
default_headers`). -/
def pyOrJson (v d : PyJson) : PyJson := if jsonTruthy v then v else d

/-- Config capture at the crawl button press (source lines building `S.config`):
cookies come straight from `parse_json_or_empty`, headers fall back to
`default_headers` when the parse result is falsy. -/
def captureConfig (loads : String → Except String PyJson) (sourceName : String)
    (startPage endPage : Nat) (cookiesJson headersJson : String)
    (verifySsl : Bool) (prefetchFlag : Bool) (maxPrefetchMb : Nat)
    (wantDownload : Bool) (extFilter : String) : AppConfig :=
  { source_name := sourceName
    start_page := startPage
    end_page := endPage
    cookies := parse_json_or_empty loads cookiesJson
    headers := pyOrJson (parse_json_or_empty loads headersJson) (default_headers sourceName)
    verify_ssl := verifySsl
    prefetch := prefetchFlag
    max_prefetch_mb := maxPrefetchMb
    want_download := wantDownload
    ext_filter := extFilter }

/-- A parsed `.td_lft` row container of a list page: presence of the
`.linkTxt` element with its (optional) `onclick` attribute, and the cell's
`stripped_strings`. -/
structure LCell where
  linkOnclick : Option (Option String)
  texts : List String
deriving Repr

/-- A list row produced by `fetch_list_page`. -/
structure LRow where
  idx : String
  title : String
deriving Repr, DecidableEq

/-- The idx a cell contributes, if any: the `.linkTxt` element must exist, the
onclick pattern must match, and (Python falsiness) the idx must be nonempty. -/
def cellIdx (cell : LCell) : Option String :=
  match cell.linkOnclick with
  | none => none
  | some oc =>
    match extract_idx_from_onclick oc with
    | none => none
    | some i => if i = "" then none else some i

/-- Row-building loop of source `fetch_list_page` (its parsing phase), with the
`seen` set threaded through. -/
def listGo : List LCell → List String → List LRow
  | [], _ => []
  | cell :: rest, seen =>
    match cell.linkOnclick with
    | none => listGo rest seen
    | some oc =>
      match extract_idx_from_onclick oc with
      | none => listGo rest seen
      | some i =>
        if i = "" ∨ i ∈ seen then listGo rest seen
        else
          { idx := i, title := clean_spaces (String.intercalate " " cell.texts) }
            :: listGo rest (i :: seen)

/-- Parsing phase of source `fetch_list_page` over the parsed row containers. -/
def fetch_list_rows (cells : List LCell) : List LRow := listGo cells []

/-- Modelled from the spec: distinct values in first-seen order (used to state
the dedup property of `extract_list`). -/
def fuGo : List String → List String → List String
  | [], _ => []
  | x :: xs, seen => if x ∈ seen then fuGo xs seen else x :: fuGo xs (x :: seen)

/-- First-seen-order deduplication of a list of idx values. -/
def firstUniques (xs : List String) : List String := fuGo xs []

mutual
/-- Parsed HTML node: a text node or an element with a tag and children. -/
inductive HNode where
  | text (s : String)
  | elem (tag : String) (children : HForest)
deriving Repr
/-- A list of sibling HTML nodes. -/
inductive HForest where
  | nil
  | cons (n : HNode) (f : HForest)
deriving Repr
end

/-- Tags decomposed by `content(["script", "style"])`. -/
def isBadTag (t : String) : Bool := t = "script" || t = "style"

mutual
/-- Remove all `script`/`style` descendant elements of a node (the node itself
is kept, as BeautifulSoup's `decompose` is applied to found descendants). -/
def pruneN : HNode → HNode
  | .text s => .text s
  | .elem t f => .elem t (pruneF f)
/-- Remove `script`/`style` elements from a forest, recursively. -/
def pruneF : HForest → HForest
  | .nil => .nil
  | .cons n f =>
    match n with
    | .text s => .cons (.text s) (pruneF f)
    | .elem t cf =>
      if isBadTag t then pruneF f
      else .cons (.elem t (pruneF cf)) (pruneF f)
end

mutual
/-- All text-node strings of a node, in document order. -/
def textsN : HNode → List String
  | .text s => [s]
  | .elem _ f => textsF f
/-- All text-node strings of a forest. -/
def textsF : HForest → List String
  | .nil => []
  | .cons n f => textsN n ++ textsF f
end

/-- `get_text(separator="\n", strip=True)`: stripped nonempty text strings
joined by newlines. -/
def getText (n : HNode) : List Char :=
  joinNl (((textsN n).map (fun s => pyStripList s.data)).filter (fun l => !l.isEmpty))

/-- Parsing phase of source `fetch_detail_body_and_soup` over the parsed
`.viewContents` containers: decompose script/style, extract text, normalize,
keep nonempty parts, join with a blank line. -/
def extract_detail (containers : List HNode) : String :=
  String.mk (joinSep ['\n', '\n']
    ((containers.map (fun c => (normalize_paragraphs (String.mk (getText (pruneN c)))).data)).filter
      (fun l => !l.isEmpty)))

mutual
/-- Replace the contents of every `script`/`style` element by nothing, keeping
the element itself; used to state that script/style content never reaches the
output. -/
def gutN : HNode → HNode
  | .text s => .text s
  | .elem t f => if isBadTag t then .elem t .nil else .elem t (gutF f)
/-- `gutN` on forests. -/
def gutF : HForest → HForest
  | .nil => .nil
  | .cons n f => .cons (gutN n) (gutF f)
end

/-- Gut only below the top node (the container itself is selected, not
decomposed, so only its script/style descendants are irrelevant). -/
def gutTop : HNode → HNode
  | .text s => .text s
  | .elem t f => .elem t (gutF f)

/-- Does `needle` occur at the head of `hay`? -/
def startsWithL : List Char → List Char → Bool
  | [], _ => true
  | _ :: _, [] => false
  | n :: ns, h :: hs => n = h && startsWithL ns hs

/-- Substring test on character lists. -/
def listHasSub (needle : List Char) : List Char → Bool
  | [] => startsWithL needle []
  | c :: rest => startsWithL needle (c :: rest) || listHasSub needle rest

/-- Prefetch record appended to `row["prefetched"]` (optional dict keys become
`Option` fields). -/
structure PrefRec where
  ok : Bool
  name : Option String
  reason : Option String
deriving Repr, DecidableEq

/-- A value stored in Streamlit session state under a `name_`/`blob_` key. -/
inductive SVal where
  | str (s : String)
  | bytes (b : List Nat)
deriving Repr, DecidableEq

/-- The string-keyed session-state store for prepared files. -/
def Store : Type := String → Option SVal

/-- The empty store. -/
def emptyStore : Store := fun _ => none

/-- Store update (`S[k] = v`). -/
def setS (st : Store) (k : String) (v : SVal) : Store :=
  fun q => if q = k then some v else st q

/-- Decimal digits of `n`, most significant first (fuel-based so it reduces). -/
def natReprAux : Nat → Nat → List Char
  | 0, _ => []
  | fuel + 1, n =>
    if n = 0 then []
    else natReprAux fuel (n / 10) ++ [Char.ofNat (48 + n % 10)]

/-- Python `str(n)` for a natural number. -/
def natRepr (n : Nat) : String :=
  if n = 0 then "0" else String.mk (natReprAux n n)

/-- Decimal decoding of a digit string (proof helper for `natRepr`). -/
def decodeDec (l : List Char) : Nat := l.foldl (fun acc c => acc * 10 + (c.toNat - 48)) 0

/-- Session key `f"name_{idx}_{ai}"`. -/
def nameKey (idx : String) (ai : Nat) : String := "name_" ++ idx ++ "_" ++ natRepr ai

/-- Session key `f"blob_{idx}_{ai}"`. -/
def blobKey (idx : String) (ai : Nat) : String := "blob_" ++ idx ++ "_" ++ natRepr ai

/-- Does the prefetch loop store the download of `au` (download succeeded and
fits the limit)? -/
def storedB (dl : String → Except String (String × List Nat)) (limitBytes : Nat)
    (au : String) : Bool :=
  match dl au with
  | .ok (_, data) => decide (data.length ≤ limitBytes)
  | .error _ => false

/-- Outcome of one `download_binary` call: the error text of a raised
exception, or (filename, content bytes). -/
def DlResult : Type := Except String (String × List Nat)

/-- The prefetched record produced for one attachment, as a function of its
download outcome and the byte limit. -/
def recOf (limitBytes : Nat) : DlResult → PrefRec
  | .ok (fn, data) =>
    if data.length > limitBytes then { ok := false, name := some fn, reason := some "limit" }
    else { ok := true, name := some fn, reason := none }
  | .error e => { ok := false, name := none, reason := some e }

/-- The prefetch loop of the crawl (source lines 319–330): download each
attachment; oversized content is recorded with reason "limit" and discarded;
otherwise the name/blob session keys are written; an exception is recorded and
the loop continues. -/
def prefetchGo (dl : String → DlResult) (limitBytes : Nat) (idx : String) :
    Nat → List String → Store → List PrefRec × Store
  | _, [], st => ([], st)
  | ai, au :: rest, st =>
    match dl au with
    | .ok (fn, data) =>
      if data.length > limitBytes then
        let (rs, st') := prefetchGo dl limitBytes idx (ai + 1) rest st
        ({ ok := false, name := some fn, reason := some "limit" } :: rs, st')
      else
        let st1 := setS (setS st (nameKey idx ai) (.str fn)) (blobKey idx ai) (.bytes data)
        let (rs, st') := prefetchGo dl limitBytes idx (ai + 1) rest st1
        ({ ok := true, name := some fn, reason := none } :: rs, st')
    | .error e =>
      let (rs, st') := prefetchGo dl limitBytes idx (ai + 1) rest st
      ({ ok := false, name := none, reason := some e } :: rs, st')

/-- Prefetch of all attachments of one item, with
`limit_bytes = max_mb * 1024 * 1024` as in the source. -/
def prefetchAll (dl : String → DlResult) (maxMb : Nat) (idx : String)
    (atts : List String) (st : Store) : List PrefRec × Store :=
  prefetchGo dl (maxMb * 1024 * 1024) idx 0 atts st

/-- Network/parsing oracle: parsed list rows per page, detail body text per
(idx, page), attachment URLs per (idx, page), and the download outcome per
attachment URL. -/
structure Portal where
  listPage : Nat → List LRow
  detailBody : String → Nat → String
  detailAtts : String → Nat → List String
  download : String → DlResult

/-- An accumulated crawl result row (dict with optional keys). -/
structure Row where
  idx : String
  title : String
  body : String
  attachments : Option (List String)
  prefetched : Option (List PrefRec)
deriving Repr, DecidableEq

/-- Processing of one list item inside the crawl loop: fetch the detail body,
and for the institutional-announcement source collect attachments and
optionally prefetch them. -/
def processItem (cfg : AppConfig) (portal : Portal) (page : Nat) (it : LRow)
    (st : Store) : Row × Store :=
  let body := portal.detailBody it.idx page
  if cfg.source_name = "교육기관발표자료" then
    let atts := portal.detailAtts it.idx page
    if cfg.prefetch ∧ atts ≠ [] then
      let (recs, st') := prefetchAll portal.download cfg.max_prefetch_mb it.idx atts st
      ({ idx := it.idx, title := it.title, body := body
         attachments := some atts, prefetched := some recs }, st')
    else
      ({ idx := it.idx, title := it.title, body := body
         attachments := some atts, prefetched := none }, st)
  else
    ({ idx := it.idx, title := it.title, body := body
       attachments := none, prefetched := none }, st)

/-- Inner loop over one page's list rows, accumulating result rows in order. -/
def crawlItems (cfg : AppConfig) (portal : Portal) (page : Nat) :
    List LRow → Store → List Row × Store
  | [], st => ([], st)
  | it :: its, st =>
    let (row, st') := processItem cfg portal page it st
    let (rs, st'') := crawlItems cfg portal page its st'
    (row :: rs, st'')

/-- Outer loop over the page range; an empty list page is recorded as "no
data" and skipped. -/
def crawlPages (cfg : AppConfig) (portal : Portal) :
    List Nat → Store → List Row × Store
  | [], st => ([], st)
  | p :: ps, st =>
    let items := portal.listPage p
    if items = [] then crawlPages cfg portal ps st
    else
      let (rows, st') := crawlItems cfg portal p items st
      let (rest, st'') := crawlPages cfg portal ps st'
      (rows ++ rest, st'')

/-- The iterated pages `range(start_page, end_page + 1)`. -/
def pageList (cfg : AppConfig) : List Nat :=
  List.range' cfg.start_page (cfg.end_page + 1 - cfg.start_page)

/-- The crawl run (`S.ran` branch): results accumulate from the empty list in
page order, threading the session store. -/
def crawl (cfg : AppConfig) (portal : Portal) (st : Store) : List Row × Store :=
  crawlPages cfg portal (pageList cfg) st

/-- The result row an item yields (the row part of `processItem`, which does
not depend on the store). -/
def rowFor (cfg : AppConfig) (portal : Portal) (page : Nat) (it : LRow) : Row :=
  (processItem cfg portal page it emptyStore).1

/-- Does a character list contain three consecutive newline characters? -/
def hasTriple : List Char → Bool
  | c1 :: c2 :: c3 :: r => (c1 = '\n' && c2 = '\n' && c3 = '\n') || hasTriple (c2 :: c3 :: r)
  | _ => false

/-- A line does not start with whitespace. -/
def noLeadWs : List Char → Bool
  | [] => true
  | c :: _ => !isPySpace c

/-- A line does not end with whitespace. -/
def noTrailWs (l : List Char) : Bool :=
  match l.getLast? with
  | none => true
  | some c => !isPySpace c

/-- No two adjacent whitespace characters. -/
def noDbl : List Char → Bool
  | a :: b :: r => !(isPySpace a && isPySpace b) && noDbl (b :: r)
  | _ => true

/-- Every whitespace character is a plain space. -/
def wsSp (l : List Char) : Bool := l.all (fun c => !isPySpace c || c = ' ')

/-- A whitespace-normalized line: trimmed, single-spaced, spaces only. -/
def okLn (l : List Char) : Bool := noLeadWs l && noTrailWs l && noDbl l && wsSp l

/-- Concrete download oracle for witnesses: three attachments, the second of
size 1, everything else empty or failing. -/
def dlW : String → DlResult := fun u =>
  if u = "a" then .ok ("fa", [])
  else if u = "b" then .ok ("fb", [9])
  else if u = "c" then .ok ("fc", [])
  else .error "boom"

/-- Concrete JSON oracle for witnesses: every input fails to parse. -/
def loadsErr : String → Except String PyJson := fun _ => .error "Expecting value"

/-- Concrete list cells for the C1 witness. -/
def demoCells : List LCell :=
  [ { linkOnclick := some (some "goView(7)"), texts := ["A", "B"] }
  , { linkOnclick := none, texts := ["X"] }
  , { linkOnclick := some none, texts := ["Y"] }
  , { linkOnclick := some (some "goView(7)"), texts := ["dup"] }
  , { linkOnclick := some (some "go(8);return"), texts := [" t ", "u"] } ]

/-- Concrete detail container for the C8 witness computation. -/
def demoContainer : HNode :=
  .elem "div" (.cons (.text " Hello ")
    (.cons (.elem "script" (.cons (.text "EVILJS") .nil))
      (.cons (.elem "style" (.cons (.text "EVILCSS") .nil))
        (.cons (.text "World") .nil))))

/-- Concrete crawl configuration for witnesses. -/
def demoCfg : AppConfig :=
  { source_name := "교육기관발표자료"
    start_page := 1
    end_page := 2
    cookies := .obj []
    headers := default_headers "교육기관발표자료"
    verify_ssl := false
    prefetch := true
    max_prefetch_mb := 0
    want_download := true
    ext_filter := "zip,pdf" }

/-- Concrete portal oracle for witnesses: two pages, one item with attachments
whose second download fails. -/
def demoPortal : Portal :=
  { listPage := fun p =>
      if p = 1 then [{ idx := "7", title := "t7" }, { idx := "8", title := "t8" }]
      else if p = 2 then [{ idx := "9", title := "t9" }] else []
    detailBody := fun idx _ => "body " ++ idx
    detailAtts := fun idx _ => if idx = "7" then ["a", "x", "c"] else []
    download := dlW }


/-! ### Basic facts about stripping and collapsing -/

theorem dropWhile_head_false (p : Char → Bool) :
    ∀ l c t, List.dropWhile p l = c :: t → p c = false := by
  intro l
  induction l with
  | nil => intro c t h; simp at h
  | cons a r ih =>
    intro c t h
    rw [List.dropWhile_cons] at h
    by_cases hp : p a
    · simp [hp] at h; exact ih c t h
    · simp [hp] at h
      simpa [← h.1] using hp

theorem dwr_cons_shape (p : Char → Bool) (c : Char) (r : List Char) :
    dropWR p (c :: r) = [] ∨ dropWR p (c :: r) = c :: dropWR p r := by
  simp only [dropWR]
  by_cases h : dropWR p r = [] ∧ p c
  · left; simp [h.1, h.2]
  · right
    rcases Decidable.not_and_iff_or_not.mp h with h1 | h1 <;> simp [h1]

theorem mem_dwr (p : Char → Bool) : ∀ l a, a ∈ dropWR p l → a ∈ l := by
  intro l
  induction l with
  | nil => intro a h; simp [dropWR] at h
  | cons c r ih =>
    intro a h
    rcases dwr_cons_shape p c r with hs | hs
    · rw [hs] at h; simp at h
    · rw [hs] at h
      rcases List.mem_cons.mp h with h1 | h1
      · simp [h1]
      · exact List.mem_cons_of_mem _ (ih a h1)

theorem mem_pyStripList (l : List Char) (a : Char) (h : a ∈ pyStripList l) : a ∈ l :=
  (List.dropWhile_sublist _).mem (mem_dwr _ _ a h)

theorem dwr_getLast (p : Char → Bool) :
    ∀ l c, (dropWR p l).getLast? = some c → p c = false := by
  intro l
  induction l with
  | nil => intro c h; simp [dropWR] at h
  | cons a r ih =>
    intro c h
    rcases dwr_cons_shape p a r with hs | hs
    · rw [hs] at h; simp at h
    · rw [hs] at h
      rcases hr : dropWR p r with _ | ⟨b, t⟩
      · rw [hr] at h
        have hac : a = c := by simpa using h
        subst hac
        by_cases hp : p a
        · exfalso
          simp only [dropWR] at hs
          rw [hr] at hs
          simp [hp] at hs
        · exact Bool.eq_false_iff.mpr hp
      · rw [hr, List.getLast?_cons_cons] at h
        exact ih c (by rw [hr]; exact h)

theorem dwr_eq_self (p : Char → Bool) :
    ∀ l, (∀ c, l.getLast? = some c → p c = false) → dropWR p l = l := by
  intro l
  induction l with
  | nil => intro _; rfl
  | cons a r ih =>
    intro h
    rcases hr : r with _ | ⟨b, t⟩
    · have ha : p a = false := h a (by simp [hr])
      simp [dropWR, hr, ha]
    · have hr' : dropWR p r = r := by
        apply ih
        intro c hc
        apply h
        rw [hr, List.getLast?_cons_cons, ← hr]
        exact hc
      rw [← hr]
      simp only [dropWR]
      rw [hr', hr]
      simp

theorem dwr_head (p : Char → Bool) (l : List Char) (c : Char) (t : List Char)
    (h : dropWR p l = c :: t) : ∃ t0, l = c :: t0 ∧ t = dropWR p t0 := by
  rcases l with _ | ⟨a, r⟩
  · simp [dropWR] at h
  · rcases dwr_cons_shape p a r with hs | hs
    · rw [hs] at h; exact absurd h (by simp)
    · rw [hs] at h
      injection h with h1 h2
      exact ⟨r, by rw [h1], h2.symm⟩

theorem pyStripList_idem (l : List Char) : pyStripList (pyStripList l) = pyStripList l := by
  have h1 : List.dropWhile isPySpace (pyStripList l) = pyStripList l := by
    rcases hB : pyStripList l with _ | ⟨c, t⟩
    · rfl
    · have hB' := hB
      unfold pyStripList at hB'
      obtain ⟨t0, ht0, -⟩ := dwr_head _ _ _ _ hB'
      have hc : isPySpace c = false := dropWhile_head_false isPySpace _ c t0 ht0
      simp [List.dropWhile_cons, hc]
  have h2 : dropWR isPySpace (pyStripList l) = pyStripList l :=
    dwr_eq_self _ _ (fun c hc => dwr_getLast isPySpace _ c hc)
  show dropWR isPySpace (List.dropWhile isPySpace (pyStripList l)) = pyStripList l
  rw [h1]
  exact h2

theorem pyStrip_idem (s : String) : pyStrip (pyStrip s) = pyStrip s := by
  show String.mk (pyStripList (pyStripList s.data)) = pyStrip s
  rw [pyStripList_idem]
  rfl

theorem mem_cwGo : ∀ (l : List Char) (b : Bool) (a : Char),
    a ∈ cwGo b l → (a ∈ l ∧ isPySpace a = false) ∨ a = ' ' := by
  intro l
  induction l with
  | nil => intro b a h; simp [cwGo] at h
  | cons c r ih =>
    intro b a h
    simp only [cwGo] at h
    by_cases hc : isPySpace c
    · simp [hc] at h
      rcases b with _ | _
      · simp at h
        rcases h with h | h
        · right; exact h
        · rcases ih true a h with ⟨h1, h2⟩ | h1
          · exact Or.inl ⟨List.mem_cons_of_mem _ h1, h2⟩
          · exact Or.inr h1
      · simp at h
        rcases ih true a h with ⟨h1, h2⟩ | h1
        · exact Or.inl ⟨List.mem_cons_of_mem _ h1, h2⟩
        · exact Or.inr h1
    · simp [hc] at h
      rcases h with h | h
      · subst h
        exact Or.inl ⟨List.mem_cons_self _ _, Bool.eq_false_iff.mpr hc⟩
      · rcases ih false a h with ⟨h1, h2⟩ | h1
        · exact Or.inl ⟨List.mem_cons_of_mem _ h1, h2⟩
        · exact Or.inr h1

theorem cleanLn_no_nl (l : List Char) : '\n' ∉ cleanLn l := by
  intro h
  have h1 := mem_pyStripList _ _ h
  rcases mem_cwGo l false '\n' h1 with ⟨-, h2⟩ | h2
  · simp [isPySpace] at h2
  · simp at h2

/-! ### Characterization of whitespace-normalized lines -/

theorem cwGo_true_head : ∀ (l : List Char) c t, cwGo true l = c :: t → isPySpace c = false := by
  intro l
  induction l with
  | nil => intro c t h; simp [cwGo] at h
  | cons a r ih =>
    intro c t h
    simp only [cwGo] at h
    by_cases ha : isPySpace a
    · simp [ha] at h; exact ih c t h
    · simp [ha] at h
      rw [← h.1]
      exact Bool.eq_false_iff.mpr ha

theorem cwGo_true_of_head (l : List Char)
    (h : ∀ c t, l = c :: t → isPySpace c = false) : cwGo true l = cwGo false l := by
  rcases l with _ | ⟨c, r⟩
  · rfl
  · have hc := h c r rfl
    simp [cwGo, hc]

theorem wsSp_cwGo (l : List Char) (b : Bool) : wsSp (cwGo b l) = true := by
  rw [wsSp, List.all_eq_true]
  intro a ha
  rcases mem_cwGo l b a ha with ⟨-, h2⟩ | h2
  · simp [h2]
  · simp [h2]

theorem noDbl_tail (c : Char) (r : List Char) (h : noDbl (c :: r) = true) : noDbl r = true := by
  rcases r with _ | ⟨d, t⟩
  · rfl
  · simp only [noDbl, Bool.and_eq_true] at h
    exact h.2

theorem bnot_true (a : Bool) (h : (!a) = true) : a = false := by
  cases a
  · rfl
  · simp at h

theorem noDbl_cons (c : Char) (X : List Char) (hX : noDbl X = true)
    (hh : ∀ d t, X = d :: t → (isPySpace c && isPySpace d) = false) :
    noDbl (c :: X) = true := by
  rcases X with _ | ⟨d, t⟩
  · rfl
  · simp only [noDbl, Bool.and_eq_true]
    exact ⟨by rw [hh d t rfl]; rfl, hX⟩

theorem noDbl_cwGo : ∀ (l : List Char) (b : Bool), noDbl (cwGo b l) = true := by
  intro l
  induction l with
  | nil => intro b; rfl
  | cons c r ih =>
    intro b
    simp only [cwGo]
    by_cases hc : isPySpace c
    · rcases b with _ | _
      · simp only [hc, if_true, Bool.false_eq_true, if_false]
        apply noDbl_cons _ _ (ih true)
        intro d t hdt
        have := cwGo_true_head r d t hdt
        simp [this]
      · simp only [hc, if_true]
        exact ih true
    · simp only [hc, if_false]
      apply noDbl_cons _ _ (ih false)
      intro d t _
      simp [Bool.eq_false_iff.mpr hc]

theorem noLead_pyStripList (X : List Char) : noLeadWs (pyStripList X) = true := by
  rcases hB : pyStripList X with _ | ⟨c, t⟩
  · rfl
  · have hB' := hB
    unfold pyStripList at hB'
    obtain ⟨t0, ht0, -⟩ := dwr_head _ _ _ _ hB'
    have hc : isPySpace c = false := dropWhile_head_false isPySpace _ c t0 ht0
    simp [noLeadWs, hc]

theorem noTrail_pyStripList (X : List Char) : noTrailWs (pyStripList X) = true := by
  rw [noTrailWs]
  rcases hB : (pyStripList X).getLast? with _ | c
  · rfl
  · have := dwr_getLast isPySpace (X.dropWhile isPySpace) c hB
    simp [this]

theorem noDbl_dropWhile (p : Char → Bool) :
    ∀ l, noDbl l = true → noDbl (l.dropWhile p) = true := by
  intro l
  induction l with
  | nil => intro _; rfl
  | cons c r ih =>
    intro h
    rw [List.dropWhile_cons]
    by_cases hp : p c
    · simp only [hp, if_true]
      exact ih (noDbl_tail c r h)
    · simpa [hp] using h

theorem noDbl_dwr (p : Char → Bool) :
    ∀ l, noDbl l = true → noDbl (dropWR p l) = true := by
  intro l
  induction l with
  | nil => intro _; rfl
  | cons c r ih =>
    intro h
    rcases dwr_cons_shape p c r with hs | hs
    · rw [hs]; rfl
    · rw [hs]
      apply noDbl_cons _ _ (ih (noDbl_tail c r h))
      intro d t hdt
      obtain ⟨t0, ht0, -⟩ := dwr_head _ _ _ _ hdt
      rw [ht0] at h
      simp only [noDbl, Bool.and_eq_true] at h
      exact bnot_true _ h.1

theorem wsSp_of_mem (l : List Char) (h : ∀ a ∈ l, (!isPySpace a || a = ' ') = true) :
    wsSp l = true := by
  rw [wsSp, List.all_eq_true]
  exact fun a ha => by simpa using h a ha

theorem wsSp_mem (l : List Char) (h : wsSp l = true) (a : Char) (ha : a ∈ l) :
    (!isPySpace a || a = ' ') = true := by
  rw [wsSp, List.all_eq_true] at h
  simpa using h a ha

theorem wsSp_pyStripList (X : List Char) (h : wsSp X = true) :
    wsSp (pyStripList X) = true :=
  wsSp_of_mem _ (fun a ha => wsSp_mem X h a (mem_pyStripList X a ha))

theorem okLn_cleanLn (l : List Char) : okLn (cleanLn l) = true := by
  have h1 := noLead_pyStripList (collapseWs l)
  have h2 := noTrail_pyStripList (collapseWs l)
  have h3 : noDbl (cleanLn l) = true :=
    noDbl_dwr _ _ (noDbl_dropWhile _ _ (noDbl_cwGo l false))
  have h4 : wsSp (cleanLn l) = true := wsSp_pyStripList _ (wsSp_cwGo l false)
  simp only [okLn, Bool.and_eq_true]
  exact ⟨⟨⟨h1, h2⟩, h3⟩, h4⟩

theorem cw_id : ∀ (n : Nat) (l : List Char), l.length ≤ n → wsSp l = true →
    noDbl l = true → noLeadWs l = true → cwGo false l = l := by
  intro n
  induction n with
  | zero =>
    intro l hl _ _ _
    rw [List.length_eq_zero.mp (Nat.le_zero.mp hl)]
    rfl
  | succ n ih =>
    intro l hl hw hd hh
    rcases l with _ | ⟨c, r⟩
    · rfl
    · have hc : isPySpace c = false := by simpa [noLeadWs] using hh
      have step : cwGo false (c :: r) = c :: cwGo false r := by
        simp [cwGo, hc]
      rw [step]
      rcases r with _ | ⟨d, t⟩
      · rfl
      · by_cases hdws : isPySpace d
        · have hdsp : d = ' ' := by
            have := wsSp_mem _ hw d (by simp)
            simp [hdws] at this
            exact this
          subst hdsp
          have step2 : cwGo false (' ' :: t) = ' ' :: cwGo true t := by
            simp [cwGo, isPySpace]
          rw [step2]
          have hth : ∀ e u, t = e :: u → isPySpace e = false := by
            intro e u heu
            subst heu
            simp only [noDbl, Bool.and_eq_true] at hd
            have := hd.2
            rcases this with ⟨h1, -⟩ 
            simpa [isPySpace] using h1
          rw [cwGo_true_of_head t hth]
          have ht : cwGo false t = t := by
            apply ih t (by simp at hl; omega)
            · exact wsSp_of_mem _ (fun a ha => wsSp_mem _ hw a (by simp [ha]))
            · exact noDbl_tail _ _ (noDbl_tail _ _ hd)
            · rcases t with _ | ⟨e, u⟩
              · rfl
              · simpa [noLeadWs] using hth e u rfl
          rw [ht]
        · have ht : cwGo false (d :: t) = d :: t := by
            apply ih (d :: t) (by simp at hl ⊢; omega)
            · exact wsSp_of_mem _ (fun a ha => wsSp_mem _ hw a (by simp [ha]))
            · exact noDbl_tail _ _ hd
            · simpa [noLeadWs] using Bool.eq_false_iff.mpr hdws
          rw [ht]

theorem collapseWs_id (l : List Char) (h : okLn l = true) : collapseWs l = l := by
  simp only [okLn, Bool.and_eq_true] at h
  exact cw_id l.length l le_rfl h.2 h.1.2 h.1.1.1

theorem pyStripList_id (l : List Char) (h : okLn l = true) : pyStripList l = l := by
  simp only [okLn, Bool.and_eq_true] at h
  have h1 : List.dropWhile isPySpace l = l := by
    rcases l with _ | ⟨c, r⟩
    · rfl
    · have hc : isPySpace c = false := by simpa [noLeadWs] using h.1.1.1
      simp [List.dropWhile_cons, hc]
  have h2 : dropWR isPySpace l = l := by
    apply dwr_eq_self
    intro c hc
    have := h.1.1.2
    rw [noTrailWs, hc] at this
    simpa using this
  unfold pyStripList
  rw [h1, h2]

theorem cleanLn_id (l : List Char) (h : okLn l = true) : cleanLn l = l := by
  rw [cleanLn, collapseWs_id l h, pyStripList_id l h]

theorem cleanLn_idem (l : List Char) : cleanLn (cleanLn l) = cleanLn l :=
  cleanLn_id _ (okLn_cleanLn l)

/-! ### Lines of the newline-collapsed text -/

theorem splitNl_ne_nil : ∀ l : List Char, splitNl l ≠ [] := by
  intro l
  induction l with
  | nil => simp [splitNl]
  | cons c r ih =>
    simp only [splitNl]
    by_cases hc : c = '\n'
    · simp [hc]
    · simp only [hc, if_false]
      rcases hr : splitNl r with _ | ⟨x, xs⟩
      · simp
      · simp

theorem splitNl_noNl : ∀ l : List Char, '\n' ∉ l → splitNl l = [l] := by
  intro l
  induction l with
  | nil => intro _; rfl
  | cons c r ih =>
    intro h
    have hc : c ≠ '\n' := fun hh => h (hh ▸ List.mem_cons_self c r)
    have hr : splitNl r = [r] := ih (fun hh => h (List.mem_cons_of_mem _ hh))
    simp only [splitNl, hc, if_false, hr]

theorem splitNl_cons_head (c : Char) (X : List Char) (hc : c ≠ '\n') :
    ∃ x xs, splitNl X = x :: xs ∧ splitNl (c :: X) = (c :: x) :: xs := by
  rcases hX : splitNl X with _ | ⟨x, xs⟩
  · exact absurd hX (splitNl_ne_nil X)
  · exact ⟨x, xs, rfl, by simp only [splitNl, hc, if_false, hX]⟩

theorem splitNl_append_nl : ∀ (ln X : List Char), '\n' ∉ ln →
    splitNl (ln ++ '\n' :: X) = ln :: splitNl X := by
  intro ln
  induction ln with
  | nil => intro X _; simp [splitNl]
  | cons c r ih =>
    intro X h
    have hc : c ≠ '\n' := fun hh => h (hh ▸ List.mem_cons_self c r)
    have hr := ih X (fun hh => h (List.mem_cons_of_mem _ hh))
    rw [List.cons_append]
    obtain ⟨x, xs, hx, hx2⟩ := splitNl_cons_head c (r ++ '\n' :: X) hc
    rw [hx2]
    rw [hr] at hx
    injection hx with h1 h2
    rw [h1, h2]

theorem joinSep_cons (sep : List Char) (l : List Char) (ls : List (List Char))
    (h : ls ≠ []) : joinSep sep (l :: ls) = l ++ sep ++ joinSep sep ls := by
  rcases ls with _ | ⟨m, ms⟩
  · exact absurd rfl h
  · rfl

theorem splitNl_joinNl : ∀ ls : List (List Char), ls ≠ [] →
    (∀ l ∈ ls, '\n' ∉ l) → splitNl (joinNl ls) = ls := by
  intro ls
  induction ls with
  | nil => intro h _; exact absurd rfl h
  | cons l ms ih =>
    intro _ h
    rcases hms : ms with _ | ⟨m, ms'⟩
    · exact splitNl_noNl l (h l (by simp))
    · rw [← hms]
      have hne : ms ≠ [] := by simp [hms]
      rw [joinNl, joinSep_cons _ _ _ hne]
      have : l ++ ['\n'] ++ joinSep ['\n'] ms = l ++ '\n' :: joinNl ms := by
        simp [joinNl]
      rw [this, splitNl_append_nl _ _ (h l (by simp))]
      rw [ih hne (fun x hx => h x (List.mem_cons_of_mem _ hx))]

theorem nlFlush_cases (k : Nat) :
    nlFlush k = [] ∨ nlFlush k = ['\n'] ∨ nlFlush k = ['\n', '\n'] := by
  rcases k with _ | _ | _ | k <;> simp [nlFlush]

theorem nlGo_head_nl : ∀ (l : List Char) (k : Nat), 1 ≤ k →
    ∃ t, nlGo k l = '\n' :: t := by
  intro l
  induction l with
  | nil =>
    intro k hk
    rcases nlFlush_cases k with h | h | h
    · exfalso
      rcases k with _ | k
      · omega
      · by_cases h3 : 3 ≤ k + 1 <;> simp [nlFlush, h3] at h
    · exact ⟨[], h⟩
    · exact ⟨['\n'], h⟩
  | cons c r ih =>
    intro k hk
    simp only [nlGo]
    by_cases hc : c = '\n'
    · simp only [hc, if_true]
      exact ih (k + 1) (by omega)
    · simp only [hc, if_false]
      rcases nlFlush_cases k with h | h | h
      · exfalso
        rcases k with _ | k
        · omega
        · by_cases h3 : 3 ≤ k + 1 <;> simp [nlFlush, h3] at h
      · exact ⟨_, by rw [h]; rfl⟩
      · exact ⟨_, by rw [h]; rfl⟩

theorem splitNl_head_nlGo : ∀ l : List Char,
    (splitNl (nlGo 0 l)).head? = (splitNl l).head? := by
  intro l
  induction l with
  | nil => rfl
  | cons c r ih =>
    by_cases hc : c = '\n'
    · subst hc
      have h1 : nlGo 0 ('\n' :: r) = nlGo 1 r := by simp [nlGo]
      obtain ⟨t, ht⟩ := nlGo_head_nl r 1 le_rfl
      rw [h1, ht]
      have h2 : splitNl ('\n' :: t) = [] :: splitNl t := by simp [splitNl]
      have h3 : splitNl ('\n' :: r) = [] :: splitNl r := by simp [splitNl]
      rw [h2, h3]
      rfl
    · have h1 : nlGo 0 (c :: r) = c :: nlGo 0 r := by simp [nlGo, hc, nlFlush]
      obtain ⟨x, xs, hx, hx2⟩ := splitNl_cons_head c (nlGo 0 r) hc
      obtain ⟨y, ys, hy, hy2⟩ := splitNl_cons_head c r hc
      rw [h1, hx2, hy2]
      have : x = y := by
        have := ih
        rw [hx, hy] at this
        simpa using this
      simp [this]

theorem splitNl_replicate_append : ∀ (m : Nat) (X : List Char),
    splitNl (List.replicate m '\n' ++ X) = List.replicate m [] ++ splitNl X := by
  intro m
  induction m with
  | zero => intro X; simp
  | succ n ih =>
    intro X
    rw [List.replicate_succ, List.cons_append]
    have h : splitNl ('\n' :: (List.replicate n '\n' ++ X))
        = [] :: splitNl (List.replicate n '\n' ++ X) := by simp [splitNl]
    rw [h, ih X]
    simp [List.replicate_succ]

theorem nlFlush_eq_rep (k : Nat) :
    nlFlush k = List.replicate (if 3 ≤ k then 2 else k) '\n' := by
  by_cases h : 3 ≤ k <;> simp [nlFlush, h]

theorem filter_rep_nil (m : Nat) :
    (List.replicate m ([] : List Char)).filter (fun x => !x.isEmpty) = [] := by
  induction m with
  | zero => rfl
  | succ n ih => simp [List.replicate_succ, List.filter_cons, ih]

theorem filterNE_nlGo : ∀ (l : List Char) (k : Nat),
    (splitNl (nlGo k l)).filter (fun x => !x.isEmpty)
      = (splitNl l).filter (fun x => !x.isEmpty) := by
  intro l
  induction l with
  | nil =>
    intro k
    show (splitNl (nlFlush k)).filter _ = _
    rw [nlFlush_eq_rep k]
    have := splitNl_replicate_append (if 3 ≤ k then 2 else k) []
    rw [List.append_nil] at this
    rw [this, List.filter_append, filter_rep_nil]
    rfl
  | cons c r ih =>
    intro k
    by_cases hc : c = '\n'
    · subst hc
      have h1 : nlGo k ('\n' :: r) = nlGo (k + 1) r := by simp [nlGo]
      have h3 : splitNl ('\n' :: r) = [] :: splitNl r := by simp [splitNl]
      rw [h1, ih (k + 1), h3]
      simp [List.filter_cons]
    · have h1 : nlGo k (c :: r) = nlFlush k ++ c :: nlGo 0 r := by simp [nlGo, hc]
      rw [h1, nlFlush_eq_rep k, splitNl_replicate_append, List.filter_append, filter_rep_nil,
        List.nil_append]
      obtain ⟨x, xs, hx, hx2⟩ := splitNl_cons_head c (nlGo 0 r) hc
      obtain ⟨y, ys, hy, hy2⟩ := splitNl_cons_head c r hc
      have hxy : x = y := by
        have := splitNl_head_nlGo r
        rw [hx, hy] at this
        simpa using this
      subst hxy
      have htails : xs.filter (fun x => !x.isEmpty) = ys.filter (fun x => !x.isEmpty) := by
        have := ih 0
        rw [hx, hy] at this
        by_cases hxe : x.isEmpty
        · simpa [List.filter_cons, hxe] using this
        · simp only [List.filter_cons, hxe] at this
          simpa using this
      rw [hx2, hy2]
      simp [List.filter_cons, htails]

theorem mem_splitNl_nlGo (t l : List Char) (h : l ∈ splitNl (nlGo 0 t)) :
    l = [] ∨ l ∈ splitNl t := by
  by_cases he : l.isEmpty
  · left
    exact List.isEmpty_iff.mp he
  · right
    have h1 : l ∈ (splitNl (nlGo 0 t)).filter (fun x => !x.isEmpty) :=
      List.mem_filter.mpr ⟨h, by simp [he]⟩
    rw [filterNE_nlGo t 0] at h1
    exact (List.mem_filter.mp h1).1

/-! ### No triple newline in the collapsed output -/

theorem hT_cons_of_ne (c : Char) (X : List Char) (hc : c ≠ '\n') :
    hasTriple (c :: X) = hasTriple X := by
  rcases X with _ | ⟨x2, _ | ⟨x3, xs⟩⟩ <;> simp [hasTriple, hc]

theorem hT_snd_ne (d c : Char) (X : List Char) (hc : c ≠ '\n') :
    hasTriple (d :: c :: X) = hasTriple (c :: X) := by
  rcases X with _ | ⟨x, xs⟩ <;> simp [hasTriple, hc]

theorem hT_cons_false (c : Char) (l : List Char) (h : hasTriple (c :: l) = false) :
    hasTriple l = false := by
  rcases l with _ | ⟨a, _ | ⟨b, r⟩⟩
  · rfl
  · rfl
  · simp only [hasTriple, Bool.or_eq_false_iff] at h
    exact h.2

theorem hT_dropWhile (p : Char → Bool) :
    ∀ l, hasTriple l = false → hasTriple (List.dropWhile p l) = false := by
  intro l
  induction l with
  | nil => intro h; exact h
  | cons c r ih =>
    intro h
    rw [List.dropWhile_cons]
    by_cases hp : p c
    · simp only [hp, if_true]
      exact ih (hT_cons_false c r h)
    · simpa [hp] using h

theorem dwr_isPre (p : Char → Bool) : ∀ l, ∃ t, l = dropWR p l ++ t := by
  intro l
  induction l with
  | nil => exact ⟨[], rfl⟩
  | cons c r ih =>
    rcases dwr_cons_shape p c r with hs | hs
    · exact ⟨c :: r, by rw [hs]; rfl⟩
    · obtain ⟨t, ht⟩ := ih
      exact ⟨t, by rw [hs, List.cons_append, ← ht]⟩

theorem hT_append_left : ∀ (a t : List Char), hasTriple a = true →
    hasTriple (a ++ t) = true := by
  intro a
  induction a with
  | nil => intro t h; simp [hasTriple] at h
  | cons c1 rest ih =>
    intro t h
    rcases rest with _ | ⟨c2, _ | ⟨c3, rest3⟩⟩
    · simp [hasTriple] at h
    · simp [hasTriple] at h
    · simp only [hasTriple, Bool.or_eq_true] at h
      rcases h with h | h
      · have h' : (c1 = '\n' ∧ c2 = '\n') ∧ c3 = '\n' := by simpa using h
        obtain ⟨⟨h1, h2⟩, h3⟩ := h'
        subst h1; subst h2; subst h3
        simp [List.cons_append, hasTriple]
      · have := ih t h
        simp only [List.cons_append] at this ⊢
        simp only [hasTriple, Bool.or_eq_true]
        right
        simpa using this

theorem hT_dwr (p : Char → Bool) (l : List Char) (h : hasTriple l = false) :
    hasTriple (dropWR p l) = false := by
  obtain ⟨t, ht⟩ := dwr_isPre p l
  by_contra hcon
  have h1 : hasTriple (dropWR p l) = true := by
    rcases hv : hasTriple (dropWR p l)
    · exact absurd hv hcon
    · rfl
  have := hT_append_left _ t h1
  rw [← ht] at this
  rw [this] at h
  exact absurd h (by simp)

theorem hT_pyStripList (l : List Char) (h : hasTriple l = false) :
    hasTriple (pyStripList l) = false :=
  hT_dwr _ _ (hT_dropWhile _ _ h)

theorem hT_nlFlush (k : Nat) : hasTriple (nlFlush k) = false := by
  rcases nlFlush_cases k with h | h | h <;> rw [h] <;> rfl

theorem hT_nlGo : ∀ (l : List Char) (k : Nat), hasTriple (nlGo k l) = false := by
  intro l
  induction l with
  | nil => intro k; exact hT_nlFlush k
  | cons c r ih =>
    intro k
    by_cases hc : c = '\n'
    · subst hc
      have h1 : nlGo k ('\n' :: r) = nlGo (k + 1) r := by simp [nlGo]
      rw [h1]
      exact ih (k + 1)
    · have h1 : nlGo k (c :: r) = nlFlush k ++ c :: nlGo 0 r := by simp [nlGo, hc]
      rw [h1]
      have hx : hasTriple (c :: nlGo 0 r) = false := by
        rw [hT_cons_of_ne c _ hc]
        exact ih 0
      rcases nlFlush_cases k with h | h | h <;> rw [h]
      · simpa using hx
      · show hasTriple ('\n' :: c :: nlGo 0 r) = false
        rw [hT_snd_ne _ c _ hc]
        exact hx
      · show hasTriple ('\n' :: '\n' :: c :: nlGo 0 r) = false
        rcases hg : nlGo 0 r with _ | ⟨g, gs⟩
        · simp [hasTriple, hc]
        · rw [hg] at hx
          simp [hasTriple, hc, hx]

/-! ### Stripping keeps only whole normalized lines -/

theorem dwr_append (p : Char → Bool) : ∀ (a b : List Char),
    dropWR p (a ++ b) = if dropWR p b = [] then dropWR p a else a ++ dropWR p b := by
  intro a b
  induction a with
  | nil =>
    by_cases hb : dropWR p b = [] <;> simp [hb, dropWR]
  | cons x a' ih =>
    by_cases hb : dropWR p b = []
    · simp only [hb, if_true] at ih ⊢
      rw [List.cons_append]
      show (if (dropWR p (a' ++ b) = [] && p x) then [] else x :: dropWR p (a' ++ b))
        = dropWR p (x :: a')
      rw [ih]
      rfl
    · simp only [hb, if_false] at ih ⊢
      rw [List.cons_append]
      show (if (dropWR p (a' ++ b) = [] && p x) then [] else x :: dropWR p (a' ++ b))
        = (x :: a') ++ dropWR p b
      rw [ih]
      have hne : a' ++ dropWR p b ≠ [] := by simp [hb]
      simp [hne]

theorem okLn_noTrail_id (x : List Char) (h : okLn x = true) : dropWR isPySpace x = x := by
  apply dwr_eq_self
  intro c hc
  simp only [okLn, Bool.and_eq_true] at h
  have := h.1.1.2
  rw [noTrailWs, hc] at this
  simpa using this

theorem lines_dropWhile (t : List Char) (h : ∀ x ∈ splitNl t, okLn x = true) :
    ∀ l ∈ splitNl (List.dropWhile isPySpace t), l ∈ splitNl t := by
  induction t with
  | nil => intro l hl; simpa using hl
  | cons c r ih =>
    intro l hl
    by_cases hw : isPySpace c
    · by_cases hc : c = '\n'
      · subst hc
        rw [List.dropWhile_cons] at hl
        simp only [hw, if_true] at hl
        have h3 : splitNl ('\n' :: r) = [] :: splitNl r := by simp [splitNl]
        rw [h3]
        have hr : ∀ x ∈ splitNl r, okLn x = true := by
          intro x hx
          apply h
          rw [h3]
          exact List.mem_cons_of_mem _ hx
        exact List.mem_cons_of_mem _ (ih hr l hl)
      · exfalso
        obtain ⟨x, xs, hx, hx2⟩ := splitNl_cons_head c r hc
        have := h (c :: x) (by rw [hx2]; simp)
        simp only [okLn, Bool.and_eq_true] at this
        have hlead := this.1.1.1
        simp [noLeadWs, hw] at hlead
    · rw [List.dropWhile_cons] at hl
      simpa [hw] using hl

theorem lines_dwr : ∀ (n : Nat) (t : List Char), t.length ≤ n →
    (∀ x ∈ splitNl t, okLn x = true) →
    ∀ l ∈ splitNl (dropWR isPySpace t), l = [] ∨ l ∈ splitNl t := by
  intro n
  induction n with
  | zero =>
    intro t ht _ l hl
    rw [List.length_eq_zero.mp (Nat.le_zero.mp ht)] at hl ⊢
    right
    simpa [dropWR] using hl
  | succ n ih =>
    intro t ht h l hl
    rcases hrest : t.dropWhile (fun c => decide (c ≠ '\n')) with _ | ⟨d, rest'⟩
    · -- no newline in t: a single line
      have hsplit : t.takeWhile (fun c => decide (c ≠ '\n')) = t := by
        have := List.takeWhile_append_dropWhile (p := fun c => decide (c ≠ '\n')) (l := t)
        rw [hrest, List.append_nil] at this
        exact this
      have hnoNl : '\n' ∉ t := by
        intro hmem
        rw [← hsplit] at hmem
        have := List.mem_takeWhile_imp hmem
        simp at this
      have h1 : splitNl t = [t] := splitNl_noNl t hnoNl
      have hok : okLn t = true := h t (by rw [h1]; simp)
      rw [okLn_noTrail_id t hok] at hl
      right
      exact hl
    · -- t = firstLn ++ '\n' :: rest'
      have hd : d = '\n' := by
        have := dropWhile_head_false (fun c => decide (c ≠ '\n')) t d rest' hrest
        simpa using this
      subst hd
      set firstLn := t.takeWhile (fun c => decide (c ≠ '\n')) with hfl
      have hsplit : firstLn ++ '\n' :: rest' = t := by
        rw [hfl, ← hrest]
        exact List.takeWhile_append_dropWhile ..
      have hnoNl : '\n' ∉ firstLn := by
        intro hmem
        have := List.mem_takeWhile_imp hmem
        simp at this
      have hlines : splitNl t = firstLn :: splitNl rest' := by
        rw [← hsplit]
        exact splitNl_append_nl _ _ hnoNl
      have hokF : okLn firstLn = true := h firstLn (by rw [hlines]; simp)
      have hlen : rest'.length ≤ n := by
        have : t.length = firstLn.length + 1 + rest'.length := by
          rw [← hsplit]
          simp
          omega
        omega
      have hokR : ∀ x ∈ splitNl rest', okLn x = true := by
        intro x hx
        apply h
        rw [hlines]
        exact List.mem_cons_of_mem _ hx
      rw [← hsplit, dwr_append] at hl
      by_cases hB : dropWR isPySpace ('\n' :: rest') = []
      · simp only [hB, if_true] at hl
        rw [okLn_noTrail_id firstLn hokF, splitNl_noNl firstLn hnoNl] at hl
        simp only [List.mem_singleton] at hl
        subst hl
        right
        rw [hlines]
        simp
      · simp only [hB, if_false] at hl
        rcases dwr_cons_shape isPySpace '\n' rest' with hs | hs
        · exact absurd hs hB
        · rw [hs, splitNl_append_nl _ _ hnoNl] at hl
          rcases List.mem_cons.mp hl with hl1 | hl1
          · right
            rw [hlines, hl1]
            simp
          · rcases ih rest' hlen hokR l hl1 with hl2 | hl2
            · left; exact hl2
            · right
              rw [hlines]
              exact List.mem_cons_of_mem _ hl2

theorem np_lines_ok (raw : String) :
    ∀ l ∈ splitNl (normalize_paragraphs raw).data, okLn l = true := by
  intro l hl
  have hdata : (normalize_paragraphs raw).data
      = pyStripList (nlGo 0 (joinNl ((splitNl raw.data).map cleanLn))) := rfl
  rw [hdata] at hl
  set text := joinNl ((splitNl raw.data).map cleanLn) with htext
  have hLne : (splitNl raw.data).map cleanLn ≠ [] := by
    simp [List.map_eq_nil_iff, splitNl_ne_nil]
  have hLnoNl : ∀ x ∈ (splitNl raw.data).map cleanLn, '\n' ∉ x := by
    intro x hx
    obtain ⟨y, -, hy⟩ := List.mem_map.mp hx
    rw [← hy]
    exact cleanLn_no_nl y
  have h0 : splitNl text = (splitNl raw.data).map cleanLn :=
    splitNl_joinNl _ hLne hLnoNl
  have h1 : ∀ x ∈ splitNl (nlGo 0 text), okLn x = true := by
    intro x hx
    rcases mem_splitNl_nlGo text x hx with hx1 | hx1
    · rw [hx1]; rfl
    · rw [h0] at hx1
      obtain ⟨y, -, hy⟩ := List.mem_map.mp hx1
      rw [← hy]
      exact okLn_cleanLn y
  have h2 : ∀ x ∈ splitNl (List.dropWhile isPySpace (nlGo 0 text)), okLn x = true :=
    fun x hx => h1 x (lines_dropWhile _ h1 x hx)
  rcases lines_dwr (List.dropWhile isPySpace (nlGo 0 text)).length _ le_rfl h2 l hl
    with hl1 | hl1
  · rw [hl1]; rfl
  · exact h2 l hl1

/-! ### Facts about safe_filename -/

theorem mem_foldRepl : ∀ (chs : List Char) (cs : List Char) (a : Char),
    a ∈ chs.foldl (fun l ch => l.map (fun c => if c = ch then '_' else c)) cs →
    (a ∈ cs ∧ a ∉ chs) ∨ a = '_' := by
  intro chs
  induction chs with
  | nil => intro cs a h; exact Or.inl ⟨h, by simp⟩
  | cons ch chs' ih =>
    intro cs a h
    rw [List.foldl_cons] at h
    rcases ih _ a h with ⟨h1, h2⟩ | h1
    · obtain ⟨b, hb, hba⟩ := List.mem_map.mp h1
      by_cases hbc : b = ch
      · right
        rw [← hba, if_pos hbc]
      · rw [if_neg hbc] at hba
        subst hba
        left
        refine ⟨hb, ?_⟩
        intro hmem
        rcases List.mem_cons.mp hmem with h3 | h3
        · exact hbc h3
        · exact h2 h3
    · exact Or.inr h1

theorem safe_noBad (s : String) : ∀ a ∈ (safe_filename s).data, a ∉ badChars := by
  intro a ha
  have ha2 : a ∈ badChars.foldl
      (fun l ch => l.map (fun c => if c = ch then '_' else c)) s.data :=
    mem_pyStripList _ a ha
  rcases mem_foldRepl badChars s.data a ha2 with ⟨-, h2⟩ | h2
  · exact h2
  · rw [h2]
    decide

theorem map_repl_id (ch : Char) : ∀ cs : List Char, ch ∉ cs →
    cs.map (fun c => if c = ch then '_' else c) = cs := by
  intro cs
  induction cs with
  | nil => intro _; rfl
  | cons c r ih =>
    intro h
    have hc : c ≠ ch := fun hh => h (hh ▸ List.mem_cons_self c r)
    rw [List.map_cons, if_neg hc, ih (fun hh => h (List.mem_cons_of_mem _ hh))]

theorem foldRepl_id : ∀ (chs : List Char) (cs : List Char), (∀ ch ∈ chs, ch ∉ cs) →
    chs.foldl (fun l ch => l.map (fun c => if c = ch then '_' else c)) cs = cs := by
  intro chs
  induction chs with
  | nil => intro cs _; rfl
  | cons ch chs' ih =>
    intro cs h
    rw [List.foldl_cons, map_repl_id ch cs (h ch (by simp))]
    exact ih cs (fun c hc => h c (List.mem_cons_of_mem _ hc))

theorem safe_filename_data (s : String) : (safe_filename s).data
    = pyStripList (badChars.foldl
        (fun l ch => l.map (fun c => if c = ch then '_' else c)) s.data) := rfl

theorem safe_filename_fix (s : String) : safe_filename (safe_filename s) = safe_filename s := by
  have hnb : ∀ ch ∈ badChars, ch ∉ (safe_filename s).data := by
    intro ch hch hmem
    exact safe_noBad s ch hmem hch
  show String.mk (pyStripList (badChars.foldl _ (safe_filename s).data)) = safe_filename s
  rw [foldRepl_id badChars _ hnb, safe_filename_data, pyStripList_idem]
  rfl

theorem pyStrip_safe_filename (s : String) : pyStrip (safe_filename s) = safe_filename s := by
  show String.mk (pyStripList (safe_filename s).data) = safe_filename s
  rw [safe_filename_data, pyStripList_idem]
  rfl

/-! ### Facts about the list-page extraction -/

theorem listGo_idx : ∀ (cells : List LCell) (seen : List String),
    (listGo cells seen).map LRow.idx = fuGo (cells.filterMap cellIdx) seen := by
  intro cells
  induction cells with
  | nil => intro seen; rfl
  | cons cell rest ih =>
    intro seen
    rcases hoc : cell.linkOnclick with _ | oc
    · rw [show (cell :: rest).filterMap cellIdx = rest.filterMap cellIdx by
        simp [List.filterMap_cons, cellIdx, hoc]]
      simp only [listGo, hoc]
      exact ih seen
    · rcases hidx : extract_idx_from_onclick oc with _ | i
      · rw [show (cell :: rest).filterMap cellIdx = rest.filterMap cellIdx by
          simp [List.filterMap_cons, cellIdx, hoc, hidx]]
        simp only [listGo, hoc, hidx]
        exact ih seen
      · by_cases hie : i = ""
        · rw [show (cell :: rest).filterMap cellIdx = rest.filterMap cellIdx by
            simp [List.filterMap_cons, cellIdx, hoc, hidx, hie]]
          simp only [listGo, hoc, hidx]
          rw [if_pos (Or.inl hie)]
          exact ih seen
        · rw [show (cell :: rest).filterMap cellIdx = i :: rest.filterMap cellIdx by
            simp [List.filterMap_cons, cellIdx, hoc, hidx, hie]]
          by_cases hseen : i ∈ seen
          · simp only [listGo, hoc, hidx]
            rw [if_pos (Or.inr hseen)]
            rw [show fuGo (i :: rest.filterMap cellIdx) seen
              = fuGo (rest.filterMap cellIdx) seen by simp [fuGo, hseen]]
            exact ih seen
          · simp only [listGo, hoc, hidx]
            rw [if_neg (by simp [hie, hseen])]
            rw [show fuGo (i :: rest.filterMap cellIdx) seen
              = i :: fuGo (rest.filterMap cellIdx) (i :: seen) by simp [fuGo, hseen]]
            rw [List.map_cons]
            rw [ih (i :: seen)]

theorem fuGo_props : ∀ (xs seen : List String),
    (fuGo xs seen).Nodup ∧ ∀ x ∈ fuGo xs seen, x ∉ seen := by
  intro xs
  induction xs with
  | nil => intro seen; exact ⟨List.nodup_nil, by simp [fuGo]⟩
  | cons x xs' ih =>
    intro seen
    by_cases hx : x ∈ seen
    · rw [show fuGo (x :: xs') seen = fuGo xs' seen by simp [fuGo, hx]]
      exact ih seen
    · rw [show fuGo (x :: xs') seen = x :: fuGo xs' (x :: seen) by simp [fuGo, hx]]
      obtain ⟨hnd, hni⟩ := ih (x :: seen)
      constructor
      · refine List.nodup_cons.mpr ⟨?_, hnd⟩
        intro hmem
        exact hni x hmem (by simp)
      · intro y hy
        rcases List.mem_cons.mp hy with hy1 | hy1
        · rw [hy1]; exact hx
        · intro hys
          exact hni y hy1 (List.mem_cons_of_mem _ hys)

theorem listGo_title : ∀ (cells : List LCell) (seen : List String) (r : LRow),
    r ∈ listGo cells seen → ∃ cell ∈ cells, cellIdx cell = some r.idx ∧
      r.title = clean_spaces (String.intercalate " " cell.texts) := by
  intro cells
  induction cells with
  | nil => intro seen r h; simp [listGo] at h
  | cons cell rest ih =>
    intro seen r h
    rcases hoc : cell.linkOnclick with _ | oc
    · simp only [listGo, hoc] at h
      obtain ⟨c, hc1, hc2⟩ := ih seen r h
      exact ⟨c, List.mem_cons_of_mem _ hc1, hc2⟩
    · rcases hidx : extract_idx_from_onclick oc with _ | i
      · simp only [listGo, hoc, hidx] at h
        obtain ⟨c, hc1, hc2⟩ := ih seen r h
        exact ⟨c, List.mem_cons_of_mem _ hc1, hc2⟩
      · simp only [listGo, hoc, hidx] at h
        by_cases hcond : i = "" ∨ i ∈ seen
        · rw [if_pos hcond] at h
          obtain ⟨c, hc1, hc2⟩ := ih seen r h
          exact ⟨c, List.mem_cons_of_mem _ hc1, hc2⟩
        · rw [if_neg hcond] at h
          rcases List.mem_cons.mp h with h1 | h1
          · refine ⟨cell, by simp, ?_, ?_⟩
            · have hie : i ≠ "" := fun hh => hcond (Or.inl hh)
              simp [cellIdx, hoc, hidx, hie, h1]
            · rw [h1]
          · obtain ⟨c, hc1, hc2⟩ := ih (i :: seen) r h1
            exact ⟨c, List.mem_cons_of_mem _ hc1, hc2⟩

/-! ### Session keys and the prefetch loop -/

theorem decode_append_digit (l : List Char) (c : Char) :
    decodeDec (l ++ [c]) = (decodeDec l) * 10 + (c.toNat - 48) := by
  simp [decodeDec, List.foldl_append]

theorem charVal (d : Nat) (h : d < 10) : (Char.ofNat (48 + d)).toNat = 48 + d := by
  interval_cases d <;> rfl

theorem natReprAux_decode : ∀ fuel n, n ≤ fuel → decodeDec (natReprAux fuel n) = n := by
  intro fuel
  induction fuel with
  | zero =>
    intro n hn
    interval_cases n
    rfl
  | succ fuel ih =>
    intro n hn
    by_cases h0 : n = 0
    · subst h0
      simp [natReprAux, decodeDec]
    · rw [show natReprAux (fuel + 1) n
        = natReprAux fuel (n / 10) ++ [Char.ofNat (48 + n % 10)] by simp [natReprAux, h0]]
      rw [decode_append_digit,
        ih (n / 10) (by
          have := Nat.div_lt_self (Nat.pos_of_ne_zero h0) (by omega : 1 < 10)
          omega),
        charVal (n % 10) (Nat.mod_lt n (by omega))]
      omega

theorem natRepr_decode (n : Nat) : decodeDec (natRepr n).data = n := by
  by_cases h0 : n = 0
  · subst h0
    decide
  · rw [show natRepr n = String.mk (natReprAux n n) by simp [natRepr, h0]]
    exact natReprAux_decode n n le_rfl

theorem natRepr_inj (a b : Nat) (h : natRepr a = natRepr b) : a = b := by
  have h2 := congrArg (fun s => decodeDec s.data) h
  simpa [natRepr_decode] using h2

theorem key_inj (pre idx : String) (a b : Nat)
    (h : pre ++ idx ++ "_" ++ natRepr a = pre ++ idx ++ "_" ++ natRepr b) : a = b := by
  have h2 := congrArg String.data h
  simp only [String.data_append] at h2
  have h3 : (natRepr a).data = (natRepr b).data := List.append_cancel_left h2
  have h4 : natRepr a = natRepr b := by
    calc natRepr a = String.mk (natRepr a).data := rfl
    _ = String.mk (natRepr b).data := by rw [h3]
    _ = natRepr b := rfl
  exact natRepr_inj a b h4

theorem blobKey_inj (idx : String) (a b : Nat) (h : blobKey idx a = blobKey idx b) : a = b :=
  key_inj "blob_" idx a b h

theorem nameKey_inj (idx : String) (a b : Nat) (h : nameKey idx a = nameKey idx b) : a = b :=
  key_inj "name_" idx a b h

theorem nameKey_ne_blobKey (idx idx' : String) (a b : Nat) :
    nameKey idx a ≠ blobKey idx' b := by
  intro h
  have h2 : (nameKey idx a).data.head? = (blobKey idx' b).data.head? := by rw [h]
  have hL : (nameKey idx a).data.head? = some 'n' := by
    show ((("name_" ++ idx) ++ "_") ++ natRepr a).data.head? = some 'n'
    simp only [String.data_append]
    rfl
  have hR : (blobKey idx' b).data.head? = some 'b' := by
    show ((("blob_" ++ idx') ++ "_") ++ natRepr b).data.head? = some 'b'
    simp only [String.data_append]
    rfl
  rw [hL, hR] at h2
  simp at h2

theorem prefetchGo_fst (dl : String → DlResult) (lim : Nat) (idx : String) :
    ∀ (atts : List String) (a0 : Nat) (st : Store),
    (prefetchGo dl lim idx a0 atts st).1 = atts.map (fun au => recOf lim (dl au)) := by
  intro atts
  induction atts with
  | nil => intro a0 st; rfl
  | cons au rest ih =>
    intro a0 st
    rcases hd : dl au with e | ⟨fn, data⟩
    · rcases hp : prefetchGo dl lim idx (a0 + 1) rest st with ⟨rs, st'⟩
      simp only [prefetchGo, hd, hp, List.map_cons]
      have hrs : rs = rest.map (fun au => recOf lim (dl au)) := by
        have := ih (a0 + 1) st
        rw [hp] at this
        exact this
      rw [hrs]
      simp [recOf]
    · by_cases hsz : data.length > lim
      · rcases hp : prefetchGo dl lim idx (a0 + 1) rest st with ⟨rs, st'⟩
        simp only [prefetchGo, hd, hsz, if_true, hp, List.map_cons]
        have hrs : rs = rest.map (fun au => recOf lim (dl au)) := by
          have := ih (a0 + 1) st
          rw [hp] at this
          exact this
        rw [hrs]
        simp [recOf, hsz]
      · rcases hp : prefetchGo dl lim idx (a0 + 1) rest
          (setS (setS st (nameKey idx a0) (.str fn)) (blobKey idx a0) (.bytes data))
          with ⟨rs, st'⟩
        simp only [prefetchGo, hd, hsz, if_false, hp, List.map_cons]
        have hrs : rs = rest.map (fun au => recOf lim (dl au)) := by
          have := ih (a0 + 1)
            (setS (setS st (nameKey idx a0) (.str fn)) (blobKey idx a0) (.bytes data))
          rw [hp] at this
          exact this
        rw [hrs]
        simp [recOf, hsz]

theorem prefetchGo_miss (dl : String → DlResult) (lim : Nat) (idx : String) :
    ∀ (atts : List String) (a0 : Nat) (st : Store) (k : String),
    (∀ j, j < atts.length → k ≠ nameKey idx (a0 + j) ∧ k ≠ blobKey idx (a0 + j)) →
    (prefetchGo dl lim idx a0 atts st).2 k = st k := by
  intro atts
  induction atts with
  | nil => intro a0 st k _; rfl
  | cons au rest ih =>
    intro a0 st k hk
    have hshift : ∀ j, j < rest.length → k ≠ nameKey idx (a0 + 1 + j)
        ∧ k ≠ blobKey idx (a0 + 1 + j) := by
      intro j hj
      have := hk (j + 1) (by simpa using Nat.succ_lt_succ hj)
      rwa [show a0 + (j + 1) = a0 + 1 + j by omega] at this
    rcases hd : dl au with e | ⟨fn, data⟩
    · rcases hp : prefetchGo dl lim idx (a0 + 1) rest st with ⟨rs, st'⟩
      simp only [prefetchGo, hd, hp]
      have := ih (a0 + 1) st k hshift
      rw [hp] at this
      exact this
    · by_cases hsz : data.length > lim
      · rcases hp : prefetchGo dl lim idx (a0 + 1) rest st with ⟨rs, st'⟩
        simp only [prefetchGo, hd, hsz, if_true, hp]
        have := ih (a0 + 1) st k hshift
        rw [hp] at this
        exact this
      · rcases hp : prefetchGo dl lim idx (a0 + 1) rest
          (setS (setS st (nameKey idx a0) (.str fn)) (blobKey idx a0) (.bytes data))
          with ⟨rs, st'⟩
        simp only [prefetchGo, hd, hsz, if_false, hp]
        have hrec := ih (a0 + 1)
          (setS (setS st (nameKey idx a0) (.str fn)) (blobKey idx a0) (.bytes data)) k hshift
        rw [hp] at hrec
        have h0 := hk 0 (by simp)
        have hrec2 : st' k
            = setS (setS st (nameKey idx a0) (SVal.str fn)) (blobKey idx a0)
                (SVal.bytes data) k := hrec
        rw [hrec2]
        simp only [setS]
        rw [if_neg (by simpa using h0.2), if_neg (by simpa using h0.1)]

theorem blobKey_miss_range (idx : String) (a0 : Nat) :
    ∀ j : Nat, blobKey idx a0 ≠ nameKey idx (a0 + 1 + j)
      ∧ blobKey idx a0 ≠ blobKey idx (a0 + 1 + j) := by
  intro j
  constructor
  · intro h
    exact nameKey_ne_blobKey idx idx (a0 + 1 + j) a0 h.symm
  · intro h
    have := blobKey_inj idx _ _ h
    omega

theorem nameKey_miss_range (idx : String) (a0 : Nat) :
    ∀ j : Nat, nameKey idx a0 ≠ nameKey idx (a0 + 1 + j)
      ∧ nameKey idx a0 ≠ blobKey idx (a0 + 1 + j) := by
  intro j
  constructor
  · intro h
    have := nameKey_inj idx _ _ h
    omega
  · exact nameKey_ne_blobKey idx idx a0 (a0 + 1 + j)

theorem prefetchGo_at_skip (dl : String → DlResult) (lim : Nat) (idx : String) :
    ∀ (atts : List String) (a0 : Nat) (st : Store) (j : Nat) (hj : j < atts.length),
    storedB dl lim (atts.get ⟨j, hj⟩) = false →
    (prefetchGo dl lim idx a0 atts st).2 (blobKey idx (a0 + j)) = st (blobKey idx (a0 + j))
      ∧ (prefetchGo dl lim idx a0 atts st).2 (nameKey idx (a0 + j))
          = st (nameKey idx (a0 + j)) := by
  intro atts
  induction atts with
  | nil => intro a0 st j hj; simp at hj
  | cons au rest ih =>
    intro a0 st j hj hns
    rcases j with _ | j'
    · have hau : (au :: rest).get ⟨0, hj⟩ = au := rfl
      rw [hau] at hns
      rcases hd : dl au with e | ⟨fn, data⟩
      · rcases hp : prefetchGo dl lim idx (a0 + 1) rest st with ⟨rs, st'⟩
        simp only [prefetchGo, hd, hp]
        have hb := prefetchGo_miss dl lim idx rest (a0 + 1) st (blobKey idx a0)
          (fun j hjr => blobKey_miss_range idx a0 j)
        have hn := prefetchGo_miss dl lim idx rest (a0 + 1) st (nameKey idx a0)
          (fun j hjr => nameKey_miss_range idx a0 j)
        rw [hp] at hb hn
        exact ⟨hb, hn⟩
      · have hsz : data.length > lim := by
          rw [storedB, hd] at hns
          simpa using hns
        rcases hp : prefetchGo dl lim idx (a0 + 1) rest st with ⟨rs, st'⟩
        simp only [prefetchGo, hd, hsz, if_true, hp]
        have hb := prefetchGo_miss dl lim idx rest (a0 + 1) st (blobKey idx a0)
          (fun j hjr => blobKey_miss_range idx a0 j)
        have hn := prefetchGo_miss dl lim idx rest (a0 + 1) st (nameKey idx a0)
          (fun j hjr => nameKey_miss_range idx a0 j)
        rw [hp] at hb hn
        exact ⟨hb, hn⟩
    · have hjr : j' < rest.length := by simpa using Nat.lt_of_succ_lt_succ hj
      have hau : (au :: rest).get ⟨j' + 1, hj⟩ = rest.get ⟨j', hjr⟩ := rfl
      rw [hau] at hns
      have hkey : a0 + (j' + 1) = a0 + 1 + j' := by omega
      rw [hkey]
      rcases hd : dl au with e | ⟨fn, data⟩
      · rcases hp : prefetchGo dl lim idx (a0 + 1) rest st with ⟨rs, st'⟩
        simp only [prefetchGo, hd, hp]
        have := ih (a0 + 1) st j' hjr hns
        rw [hp] at this
        exact this
      · by_cases hsz : data.length > lim
        · rcases hp : prefetchGo dl lim idx (a0 + 1) rest st with ⟨rs, st'⟩
          simp only [prefetchGo, hd, hsz, if_true, hp]
          have := ih (a0 + 1) st j' hjr hns
          rw [hp] at this
          exact this
        · rcases hp : prefetchGo dl lim idx (a0 + 1) rest
            (setS (setS st (nameKey idx a0) (.str fn)) (blobKey idx a0) (.bytes data))
            with ⟨rs, st'⟩
          simp only [prefetchGo, hd, hsz, if_false, hp]
          have := ih (a0 + 1)
            (setS (setS st (nameKey idx a0) (.str fn)) (blobKey idx a0) (.bytes data))
            j' hjr hns
          rw [hp] at this
          obtain ⟨hb, hn⟩ := this
          constructor
          · have hb2 : st' (blobKey idx (a0 + 1 + j'))
                = setS (setS st (nameKey idx a0) (SVal.str fn)) (blobKey idx a0)
                    (SVal.bytes data) (blobKey idx (a0 + 1 + j')) := hb
            rw [hb2]
            simp only [setS]
            rw [if_neg (blobKey_miss_range idx a0 j').2.symm,
              if_neg ((nameKey_miss_range idx a0 j').2.symm :
                blobKey idx (a0 + 1 + j') ≠ nameKey idx a0)]
          · have hn2 : st' (nameKey idx (a0 + 1 + j'))
                = setS (setS st (nameKey idx a0) (SVal.str fn)) (blobKey idx a0)
                    (SVal.bytes data) (nameKey idx (a0 + 1 + j')) := hn
            rw [hn2]
            simp only [setS]
            rw [if_neg (fun h => nameKey_ne_blobKey idx idx (a0 + 1 + j') a0 h),
              if_neg (nameKey_miss_range idx a0 j').1.symm]

theorem prefetchGo_at_store (dl : String → DlResult) (lim : Nat) (idx : String) :
    ∀ (atts : List String) (a0 : Nat) (st : Store) (j : Nat) (hj : j < atts.length)
      (fn : String) (data : List Nat),
    dl (atts.get ⟨j, hj⟩) = .ok (fn, data) → data.length ≤ lim →
    (prefetchGo dl lim idx a0 atts st).2 (blobKey idx (a0 + j)) = some (.bytes data)
      ∧ (prefetchGo dl lim idx a0 atts st).2 (nameKey idx (a0 + j)) = some (.str fn) := by
  intro atts
  induction atts with
  | nil => intro a0 st j hj; simp at hj
  | cons au rest ih =>
    intro a0 st j hj fn data hdl hle
    rcases j with _ | j'
    · have hau : (au :: rest).get ⟨0, hj⟩ = au := rfl
      rw [hau] at hdl
      have hsz : ¬data.length > lim := by omega
      rcases hp : prefetchGo dl lim idx (a0 + 1) rest
          (setS (setS st (nameKey idx a0) (.str fn)) (blobKey idx a0) (.bytes data))
          with ⟨rs, st'⟩
      simp only [prefetchGo, hdl, hsz, if_false, hp]
      have hb := prefetchGo_miss dl lim idx rest (a0 + 1)
        (setS (setS st (nameKey idx a0) (.str fn)) (blobKey idx a0) (.bytes data))
        (blobKey idx a0) (fun j hjr => blobKey_miss_range idx a0 j)
      have hn := prefetchGo_miss dl lim idx rest (a0 + 1)
        (setS (setS st (nameKey idx a0) (.str fn)) (blobKey idx a0) (.bytes data))
        (nameKey idx a0) (fun j hjr => nameKey_miss_range idx a0 j)
      rw [hp] at hb hn
      constructor
      · have hb2 : st' (blobKey idx (a0 + 0))
            = setS (setS st (nameKey idx a0) (SVal.str fn)) (blobKey idx a0)
                (SVal.bytes data) (blobKey idx a0) := hb
        rw [hb2]
        simp [setS]
      · have hn2 : st' (nameKey idx (a0 + 0))
            = setS (setS st (nameKey idx a0) (SVal.str fn)) (blobKey idx a0)
                (SVal.bytes data) (nameKey idx a0) := hn
        rw [hn2]
        simp only [setS]
        rw [if_neg (fun h => nameKey_ne_blobKey idx idx a0 a0 h)]
        simp
    · have hjr : j' < rest.length := by simpa using Nat.lt_of_succ_lt_succ hj
      have hau : (au :: rest).get ⟨j' + 1, hj⟩ = rest.get ⟨j', hjr⟩ := rfl
      rw [hau] at hdl
      have hkey : a0 + (j' + 1) = a0 + 1 + j' := by omega
      rw [hkey]
      rcases hd : dl au with e | ⟨fn0, data0⟩
      · rcases hp : prefetchGo dl lim idx (a0 + 1) rest st with ⟨rs, st'⟩
        simp only [prefetchGo, hd, hp]
        have := ih (a0 + 1) st j' hjr fn data hdl hle
        rw [hp] at this
        exact this
      · by_cases hsz : data0.length > lim
        · rcases hp : prefetchGo dl lim idx (a0 + 1) rest st with ⟨rs, st'⟩
          simp only [prefetchGo, hd, hsz, if_true, hp]
          have := ih (a0 + 1) st j' hjr fn data hdl hle
          rw [hp] at this
          exact this
        · rcases hp : prefetchGo dl lim idx (a0 + 1) rest
            (setS (setS st (nameKey idx a0) (.str fn0)) (blobKey idx a0) (.bytes data0))
            with ⟨rs, st'⟩
          simp only [prefetchGo, hd, hsz, if_false, hp]
          have := ih (a0 + 1)
            (setS (setS st (nameKey idx a0) (.str fn0)) (blobKey idx a0) (.bytes data0))
            j' hjr fn data hdl hle
          rw [hp] at this
          exact this

/-! ### The crawl loop -/

theorem prefetchAll_fst (dl : String → DlResult) (maxMb : Nat) (idx : String)
    (atts : List String) (st : Store) :
    (prefetchAll dl maxMb idx atts st).1
      = atts.map (fun au => recOf (maxMb * 1024 * 1024) (dl au)) :=
  prefetchGo_fst dl (maxMb * 1024 * 1024) idx atts 0 st

theorem processItem_fst (cfg : AppConfig) (portal : Portal) (page : Nat) (it : LRow) :
    ∀ st : Store, (processItem cfg portal page it st).1 = rowFor cfg portal page it := by
  intro st
  rw [rowFor]
  by_cases hsrc : cfg.source_name = "교육기관발표자료"
  · by_cases hpf : cfg.prefetch ∧ portal.detailAtts it.idx page ≠ []
    · rcases hp1 : prefetchAll portal.download cfg.max_prefetch_mb it.idx
        (portal.detailAtts it.idx page) st with ⟨rs1, s1⟩
      rcases hp2 : prefetchAll portal.download cfg.max_prefetch_mb it.idx
        (portal.detailAtts it.idx page) emptyStore with ⟨rs2, s2⟩
      simp only [processItem, hsrc, if_true, hpf, hp1, hp2]
      have h1 : rs1 = rs2 := by
        have e1 := prefetchAll_fst portal.download cfg.max_prefetch_mb it.idx
          (portal.detailAtts it.idx page) st
        have e2 := prefetchAll_fst portal.download cfg.max_prefetch_mb it.idx
          (portal.detailAtts it.idx page) emptyStore
        rw [hp1] at e1
        rw [hp2] at e2
        exact e1.trans e2.symm
      rw [h1]
      simp [hpf.2]
    · simp only [processItem, hsrc, if_true, hpf, if_false]
  · simp only [processItem, hsrc, if_false]

theorem crawlItems_fst (cfg : AppConfig) (portal : Portal) (page : Nat) :
    ∀ (its : List LRow) (st : Store),
    (crawlItems cfg portal page its st).1 = its.map (rowFor cfg portal page) := by
  intro its
  induction its with
  | nil => intro st; rfl
  | cons it rest ih =>
    intro st
    rcases hpi : processItem cfg portal page it st with ⟨row, st'⟩
    rcases hci : crawlItems cfg portal page rest st' with ⟨rs, st''⟩
    simp only [crawlItems, hpi, hci, List.map_cons]
    have h1 : row = rowFor cfg portal page it := by
      have := processItem_fst cfg portal page it st
      rw [hpi] at this
      exact this
    have h2 : rs = rest.map (rowFor cfg portal page) := by
      have := ih st'
      rw [hci] at this
      exact this
    rw [h1, h2]

theorem crawlPages_fst (cfg : AppConfig) (portal : Portal) :
    ∀ (ps : List Nat) (st : Store),
    (crawlPages cfg portal ps st).1
      = ps.flatMap (fun q => (portal.listPage q).map (rowFor cfg portal q)) := by
  intro ps
  induction ps with
  | nil => intro st; rfl
  | cons p rest ih =>
    intro st
    by_cases hitems : portal.listPage p = []
    · have hred : crawlPages cfg portal (p :: rest) st = crawlPages cfg portal rest st := by
        simp [crawlPages, hitems]
      rw [hred, List.flatMap_cons, hitems]
      simp only [List.map_nil, List.nil_append]
      exact ih st
    · rcases hci : crawlItems cfg portal p (portal.listPage p) st with ⟨rows, st'⟩
      rcases hcp : crawlPages cfg portal rest st' with ⟨rest', st''⟩
      have hred : crawlPages cfg portal (p :: rest) st = (rows ++ rest', st'') := by
        simp only [crawlPages, hci, hcp]
        rw [if_neg hitems]
      rw [hred, List.flatMap_cons]
      have h1 : rows = (portal.listPage p).map (rowFor cfg portal p) := by
        have := crawlItems_fst cfg portal p (portal.listPage p) st
        rw [hci] at this
        exact this
      have h2 : rest' = rest.flatMap (fun q => (portal.listPage q).map (rowFor cfg portal q)) := by
        have := ih st'
        rw [hcp] at this
        exact this
      rw [h1, h2]

theorem crawl_rows (cfg : AppConfig) (portal : Portal) (st : Store) :
    (crawl cfg portal st).1
      = (pageList cfg).flatMap (fun q => (portal.listPage q).map (rowFor cfg portal q)) :=
  crawlPages_fst cfg portal (pageList cfg) st

theorem pageList_sorted (cfg : AppConfig) : (pageList cfg).Pairwise (· < ·) :=
  List.pairwise_lt_range' cfg.start_page (cfg.end_page + 1 - cfg.start_page) 1 (by omega)

/-! ### The filename pipeline never produces a falsy name -/

theorem utf8Go_ne_nil (fuel : Nat) (b : Nat) (rest : List Nat) :
    utf8Go (fuel + 1) (b :: rest) ≠ [] := by
  simp only [utf8Go]
  repeat' split
  all_goals simp

theorem utf8DecodeR_ne_nil (bs : List Nat) (h : bs ≠ []) : utf8DecodeR bs ≠ [] := by
  rcases bs with _ | ⟨b, rest⟩
  · exact absurd rfl h
  · exact utf8Go_ne_nil rest.length b rest

theorem uqGo_ne_nil : ∀ (fuel : Nat) (buf : List Nat) (l : List Char),
    l.length ≤ fuel → (buf = [] → l ≠ []) → uqGo fuel buf l ≠ [] := by
  intro fuel
  induction fuel with
  | zero =>
    intro buf l hl hb
    rcases l with _ | ⟨c, rest⟩
    · exact utf8DecodeR_ne_nil buf (fun hbuf => (hb hbuf) rfl)
    · simp at hl
  | succ fuel ih =>
    intro buf l hl hb
    rcases l with _ | ⟨c, rest⟩
    · exact utf8DecodeR_ne_nil buf (fun hbuf => (hb hbuf) rfl)
    · simp only [uqGo]
      by_cases hc : c = '%'
      · rw [if_pos hc]
        rcases rest with _ | ⟨a, _ | ⟨b, rest2⟩⟩
        · simp
        · simp
        · rcases hha : hexVal a with _ | x
          · simp [hha]
          · rcases hhb : hexVal b with _ | y
            · simp [hha, hhb]
            · simp only [hha, hhb]
              apply ih (buf ++ [16 * x + y]) rest2 (by simp at hl; omega)
              intro habs
              simp at habs
      · rw [if_neg hc]
        simp

theorem string_data_ne (s : String) (h : s ≠ "") : s.data ≠ [] := by
  intro hd
  apply h
  calc s = String.mk s.data := rfl
  _ = String.mk [] := by rw [hd]
  _ = "" := rfl

theorem string_mk_ne (l : List Char) (h : l ≠ []) : String.mk l ≠ "" := by
  intro hs
  apply h
  have : (String.mk l).data = ("" : String).data := by rw [hs]
  simpa using this

theorem unquote_ne (s : String) (h : s ≠ "") : unquote s ≠ "" := by
  apply string_mk_ne
  exact uqGo_ne_nil s.data.length [] s.data le_rfl (fun _ => string_data_ne s h)

theorem cdExtTry_some (l cap : List Char) (h : cdExtTry l = some cap) : cap ≠ [] := by
  unfold cdExtTry at h
  repeat' split at h
  all_goals cases h
  all_goals simp

theorem cdPlainTry_some (l cap : List Char) (h : cdPlainTry l = some cap) : cap ≠ [] := by
  unfold cdPlainTry at h
  repeat' split at h
  all_goals cases h
  all_goals simp

theorem cdExtSearch_some : ∀ (l cap : List Char), cdExtSearch l = some cap → cap ≠ [] := by
  intro l
  induction l with
  | nil => intro cap h; simp [cdExtSearch] at h
  | cons c rest ih =>
    intro cap h
    simp only [cdExtSearch] at h
    rcases ht : cdExtTry (c :: rest) with _ | cap'
    · rw [ht] at h
      exact ih cap h
    · rw [ht] at h
      have := cdExtTry_some (c :: rest) cap' ht
      simp at h
      rw [← h]
      exact this

theorem cdPlainSearch_some : ∀ (l cap : List Char), cdPlainSearch l = some cap → cap ≠ [] := by
  intro l
  induction l with
  | nil => intro cap h; simp [cdPlainSearch] at h
  | cons c rest ih =>
    intro cap h
    simp only [cdPlainSearch] at h
    rcases ht : cdPlainTry (c :: rest) with _ | cap'
    · rw [ht] at h
      exact ih cap h
    · rw [ht] at h
      have := cdPlainTry_some (c :: rest) cap' ht
      simp at h
      rw [← h]
      exact this

theorem filename_from_cd_ne (cd : Option String) (f : String)
    (h : filename_from_cd cd = some f) : f ≠ "" := by
  rcases cd with _ | s
  · simp [filename_from_cd] at h
  · simp only [filename_from_cd] at h
    by_cases hs : s = ""
    · simp [hs] at h
    · rw [if_neg hs] at h
      rcases he : cdExtSearch s.data with _ | cap
      · rw [he] at h
        rcases hp : cdPlainSearch s.data with _ | cap
        · rw [hp] at h; simp at h
        · rw [hp] at h
          simp at h
          rw [← h]
          exact string_mk_ne cap (cdPlainSearch_some s.data cap hp)
      · rw [he] at h
        simp at h
        rw [← h]
        exact unquote_ne (String.mk cap) (string_mk_ne cap (cdExtSearch_some s.data cap he))

theorem dbn_eq_spec (cd : Option String) (path : String) :
    download_binary_name cd path = safe_filename (specChooseName cd path) := by
  rcases hf : filename_from_cd cd with _ | f
  · simp [download_binary_name, specChooseName, hf]
  · have hne : f ≠ "" := filename_from_cd_ne cd f hf
    simp [download_binary_name, specChooseName, hf, hne]

/-! ### Script/style content never reaches the extracted text -/

theorem pruneF_gutF : (f : HForest) → pruneF (gutF f) = pruneF f
  | .nil => rfl
  | .cons (.text s) f => by
    simp only [gutF, gutN, pruneF]
    rw [pruneF_gutF f]
  | .cons (.elem t cf) f => by
    by_cases hb : isBadTag t
    · simp only [gutF, gutN, hb, if_true, pruneF]
      rw [pruneF_gutF f]
    · simp only [gutF, gutN, hb, if_false, pruneF]
      rw [pruneF_gutF f, pruneF_gutF cf]

theorem pruneN_gutTop : ∀ n : HNode, pruneN (gutTop n) = pruneN n := by
  intro n
  rcases n with s | ⟨t, f⟩
  · rfl
  · show pruneN (.elem t (gutF f)) = pruneN (.elem t f)
    simp only [pruneN]
    rw [pruneF_gutF f]

theorem extract_detail_gut (cs : List HNode) :
    extract_detail (cs.map gutTop) = extract_detail cs := by
  unfold extract_detail
  rw [List.map_map]
  congr 1
  congr 1
  congr 1
  apply List.map_congr_left
  intro n _
  show (normalize_paragraphs (String.mk (getText (pruneN (gutTop n))))).data = _
  rw [pruneN_gutTop n]

/-! ### The claims -/

/-- C1: `extract_list` (the parsing phase of `fetch_list_page`) returns one row
per distinct successfully-extracted idx, each exactly once, in first-seen
document order; containers with a missing link element, a non-matching click
handler, or an already-seen idx are skipped; each row's title is the
whitespace-normalized concatenation of all text in the row container. -/
theorem claim_C1_extract_list (cells : List LCell) :
    ((fetch_list_rows cells).map LRow.idx = firstUniques (cells.filterMap cellIdx))
    ∧ ((fetch_list_rows cells).map LRow.idx).Nodup
    ∧ (∀ r ∈ fetch_list_rows cells, ∃ cell ∈ cells, cellIdx cell = some r.idx ∧
        r.title = clean_spaces (String.intercalate " " cell.texts)) := by
  refine ⟨listGo_idx cells [], ?_, ?_⟩
  · have h := listGo_idx cells []
    show (listGo cells []).map LRow.idx |>.Nodup
    rw [h]
    exact (fuGo_props _ []).1
  · intro r hr
    exact listGo_title cells [] r hr

/-- Witness for C1 on concrete cells: five containers (one duplicate idx, one
missing link, one missing handler) give rows 7 and 8 in order, and row 7's
title is the normalized text of its container. -/
theorem claim_C1_extract_list_witness :
    (fetch_list_rows demoCells).map LRow.idx = ["7", "8"]
    ∧ ∃ cell ∈ demoCells, cellIdx cell = some "7"
        ∧ "A B" = clean_spaces (String.intercalate " " cell.texts) := by
  constructor
  · have h := (claim_C1_extract_list demoCells).1
    rw [h]
    decide
  · have h := (claim_C1_extract_list demoCells).2.2 { idx := "7", title := "A B" } (by decide)
    simpa using h

/-- C2: the accumulated crawl results are exactly the concatenation, over the
page range in strictly increasing order, of each page's rows in extraction
order — each row's result appearing exactly once. -/
theorem claim_C2_crawl_order (cfg : AppConfig) (portal : Portal) (st : Store) :
    (crawl cfg portal st).1
      = (pageList cfg).flatMap (fun p => (portal.listPage p).map (rowFor cfg portal p))
    ∧ (pageList cfg).Pairwise (· < ·) :=
  ⟨crawl_rows cfg portal st, pageList_sorted cfg⟩

/-- C3: during eager prefetch with cap `max_prefetch_mb * 1024 * 1024` bytes, a
downloaded attachment strictly larger than the cap is recorded
`{ok := false, reason := "limit", name}` and its name/blob session keys are
left untouched; one within the cap is stored under both keys and recorded
`{ok := true, name}`. -/
theorem claim_C3_prefetch_limit (dl : String → DlResult) (maxMb : Nat) (idx : String)
    (atts : List String) (st : Store) (ai : Nat) (fn : String) (data : List Nat)
    (hai : ai < atts.length) (hdl : dl (atts.get ⟨ai, hai⟩) = .ok (fn, data)) :
    (data.length > maxMb * 1024 * 1024 →
      (prefetchAll dl maxMb idx atts st).1.get? ai
          = some { ok := false, name := some fn, reason := some "limit" }
        ∧ (prefetchAll dl maxMb idx atts st).2 (blobKey idx ai) = st (blobKey idx ai)
        ∧ (prefetchAll dl maxMb idx atts st).2 (nameKey idx ai) = st (nameKey idx ai))
    ∧ (data.length ≤ maxMb * 1024 * 1024 →
      (prefetchAll dl maxMb idx atts st).1.get? ai
          = some { ok := true, name := some fn, reason := none }
        ∧ (prefetchAll dl maxMb idx atts st).2 (blobKey idx ai) = some (.bytes data)
        ∧ (prefetchAll dl maxMb idx atts st).2 (nameKey idx ai) = some (.str fn)) := by
  have hrec : (prefetchAll dl maxMb idx atts st).1.get? ai
      = some (recOf (maxMb * 1024 * 1024) (dl (atts.get ⟨ai, hai⟩))) := by
    rw [prefetchAll_fst, List.get?_map, List.get?_eq_get hai]
    rfl
  constructor
  · intro hsz
    have hns : storedB dl (maxMb * 1024 * 1024) (atts.get ⟨ai, hai⟩) = false := by
      rw [storedB, hdl]
      simp
      omega
    have hsk := prefetchGo_at_skip dl (maxMb * 1024 * 1024) idx atts 0 st ai hai hns
    rw [Nat.zero_add] at hsk
    refine ⟨?_, hsk.1, hsk.2⟩
    rw [hrec, hdl]
    simp [recOf, hsz]
  · intro hsz
    have hstor := prefetchGo_at_store dl (maxMb * 1024 * 1024) idx atts 0 st ai hai
      fn data hdl hsz
    rw [Nat.zero_add] at hstor
    refine ⟨?_, hstor.1, hstor.2⟩
    rw [hrec, hdl]
    have : ¬(data.length > maxMb * 1024 * 1024) := by omega
    simp [recOf, this]

/-- Witness for C3: with a cap of 0 MB, the 1-byte second attachment is
recorded with reason "limit" and not stored, while the empty first attachment
is stored under its two session keys and recorded ok. -/
theorem claim_C3_prefetch_limit_witness :
    ((prefetchAll dlW 0 "5" ["a", "b", "c"] emptyStore).1.get? 1
        = some { ok := false, name := some "fb", reason := some "limit" }
      ∧ (prefetchAll dlW 0 "5" ["a", "b", "c"] emptyStore).2 (blobKey "5" 1)
          = emptyStore (blobKey "5" 1)
      ∧ (prefetchAll dlW 0 "5" ["a", "b", "c"] emptyStore).2 (nameKey "5" 1)
          = emptyStore (nameKey "5" 1))
    ∧ ((prefetchAll dlW 0 "5" ["a", "b", "c"] emptyStore).1.get? 0
        = some { ok := true, name := some "fa", reason := none }
      ∧ (prefetchAll dlW 0 "5" ["a", "b", "c"] emptyStore).2 (blobKey "5" 0)
          = some (.bytes [])
      ∧ (prefetchAll dlW 0 "5" ["a", "b", "c"] emptyStore).2 (nameKey "5" 0)
          = some (.str "fa")) := by
  constructor
  · exact (claim_C3_prefetch_limit dlW 0 "5" ["a", "b", "c"] emptyStore 1 "fb" [9]
      (by decide) (by rfl)).1 (by decide)
  · exact (claim_C3_prefetch_limit dlW 0 "5" ["a", "b", "c"] emptyStore 0 "fa" []
      (by decide) (by rfl)).2 (by decide)

/-- C4: a download exception during eager prefetch records
`{ok := false, reason := error text}` (no name) at that attachment's index,
every attachment still gets exactly one record determined by its own download
outcome, and the crawl itself still yields one result per list row of every
page. -/
theorem claim_C4_prefetch_error (dl : String → DlResult) (maxMb : Nat) (idx : String)
    (atts : List String) (st : Store) (ai : Nat) (e : String)
    (hai : ai < atts.length) (hdl : dl (atts.get ⟨ai, hai⟩) = .error e) :
    (prefetchAll dl maxMb idx atts st).1.get? ai
        = some { ok := false, name := none, reason := some e }
    ∧ (prefetchAll dl maxMb idx atts st).1.length = atts.length
    ∧ (∀ j : Nat, (prefetchAll dl maxMb idx atts st).1.get? j
        = (atts.get? j).map (fun au => recOf (maxMb * 1024 * 1024) (dl au)))
    ∧ (∀ (cfg : AppConfig) (portal : Portal) (st2 : Store),
        (crawl cfg portal st2).1.length
          = ((pageList cfg).map (fun p => (portal.listPage p).length)).sum) := by
  refine ⟨?_, ?_, ?_, ?_⟩
  · have hrec : (prefetchAll dl maxMb idx atts st).1.get? ai
        = some (recOf (maxMb * 1024 * 1024) (dl (atts.get ⟨ai, hai⟩))) := by
      rw [prefetchAll_fst, List.get?_map, List.get?_eq_get hai]
      rfl
    rw [hrec, hdl]
    rfl
  · rw [prefetchAll_fst, List.length_map]
  · intro j
    rw [prefetchAll_fst, List.get?_map]
  · intro cfg portal st2
    rw [crawl_rows]
    simp [List.length_flatMap, Function.comp_def, List.length_map]

/-- Witness for C4: the failing middle attachment is recorded with the error
text, all three attachments have records, and the demo crawl still collects
one row per listed item across its two pages. -/
theorem claim_C4_prefetch_error_witness :
    (prefetchAll dlW 0 "5" ["a", "x", "c"] emptyStore).1.get? 1
        = some { ok := false, name := none, reason := some "boom" }
    ∧ (prefetchAll dlW 0 "5" ["a", "x", "c"] emptyStore).1.length = 3
    ∧ (prefetchAll dlW 0 "5" ["a", "x", "c"] emptyStore).1.get? 2
        = (["a", "x", "c"].get? 2).map (fun au => recOf 0 (dlW au))
    ∧ (crawl demoCfg demoPortal emptyStore).1.length
        = ((pageList demoCfg).map (fun p => (demoPortal.listPage p).length)).sum := by
  have h := claim_C4_prefetch_error dlW 0 "5" ["a", "x", "c"] emptyStore 1 "boom"
    (by decide) (by rfl)
  exact ⟨h.1, h.2.1, h.2.2.1 2, h.2.2.2 demoCfg demoPortal emptyStore⟩

/-- Counterexample to C5 as stated: with an empty headers text input the
captured configuration's headers field is the default header set, not an empty
mapping (the code reads `parse_json_or_empty(headers_json) or default_headers`). -/
theorem claim_C5_counterexample :
    (captureConfig loadsErr "입시 뉴스" 1 1 "" "" false false 50 false "").headers
      ≠ PyJson.obj [] := by
  intro h
  have h2 : (captureConfig loadsErr "입시 뉴스" 1 1 "" "" false false 50 false "").headers
      = default_headers "입시 뉴스" := rfl
  rw [h2] at h
  simp [default_headers] at h

/-- C5 (amended): an empty or invalid cookie text input yields an empty cookie
mapping in the captured configuration; an empty or invalid header text input
makes the captured headers fall back to the selected source's default headers
(the `{}` parse result is falsy under `or`); neither case is fatal. -/
theorem claim_C5_amended (loads : String → Except String PyJson) (src : String)
    (sp ep : Nat) (cj hj : String) (v pf : Bool) (mb : Nat) (wd : Bool) (ef : String) :
    ((pyStrip cj = "" ∨ ∃ e, loads (pyStrip cj) = .error e) →
      (captureConfig loads src sp ep cj hj v pf mb wd ef).cookies = PyJson.obj [])
    ∧ ((pyStrip hj = "" ∨ ∃ e, loads (pyStrip hj) = .error e) →
      (captureConfig loads src sp ep cj hj v pf mb wd ef).headers
        = default_headers src) := by
  constructor
  · intro h
    show parse_json_or_empty loads cj = PyJson.obj []
    unfold parse_json_or_empty
    rcases h with h | ⟨e, he⟩
    · simp [h]
    · by_cases hb : pyStrip cj = ""
      · simp [hb]
      · simp [hb, he]
  · intro h
    show pyOrJson (parse_json_or_empty loads hj) (default_headers src) = default_headers src
    have hp : parse_json_or_empty loads hj = PyJson.obj [] := by
      unfold parse_json_or_empty
      rcases h with h | ⟨e, he⟩
      · simp [h]
      · by_cases hb : pyStrip hj = ""
        · simp [hb]
        · simp [hb, he]
    rw [hp]
    rfl

/-- Witness for C5 (amended) with the always-failing parser: invalid cookie
text yields `{}` for cookies, invalid header text yields the default headers. -/
theorem claim_C5_amended_witness :
    (captureConfig loadsErr "입시 뉴스" 1 1 "x" "y" false false 50 false "").cookies
        = PyJson.obj []
    ∧ (captureConfig loadsErr "입시 뉴스" 1 1 "x" "y" false false 50 false "").headers
        = default_headers "입시 뉴스" := by
  constructor
  · exact (claim_C5_amended loadsErr "입시 뉴스" 1 1 "x" "y" false false 50 false "").1
      (Or.inr ⟨"Expecting value", rfl⟩)
  · exact (claim_C5_amended loadsErr "입시 뉴스" 1 1 "x" "y" false false 50 false "").2
      (Or.inr ⟨"Expecting value", rfl⟩)

/-- C6: `download_binary` picks the filename by the spec's precedence —
Content-Disposition name (extended `filename*=` preferred over plain
`filename=`), else percent-decoded URL basename, else `"download.bin"` — and
sanitizes it; with the concrete mappings of `filename_from_cd` required by the
claim. -/
theorem claim_C6_filename :
    (∀ (cd : Option String) (path : String),
      download_binary_name cd path = safe_filename (specChooseName cd path))
    ∧ filename_from_cd (some "attachment; filename*=UTF-8''%ED%95%9C%EA%B8%80.pdf")
        = some "한글.pdf"
    ∧ filename_from_cd (some "filename=\"plain.txt\"") = some "plain.txt"
    ∧ filename_from_cd none = none
    ∧ filename_from_cd (some "attachment") = none
    ∧ filename_from_cd
        (some "attachment; filename=\"plain.txt\"; filename*=UTF-8''fancy.pdf")
        = some "fancy.pdf"
    ∧ download_binary_name none "/dir/sub/" = "download.bin"
    ∧ download_binary_name none "/dir/%EB%82%98.pdf" = "나.pdf" :=
  ⟨dbn_eq_spec, by decide, by decide, by decide, by decide, by decide, by decide, by decide⟩

/-- C7: `normalize_paragraphs` produces output that is stripped of leading and
trailing whitespace, never contains three consecutive newlines (so every run of
blank lines is collapsed to at most one blank line), and whose every line is
its own whitespace-normalization fixpoint; on the concrete input with four
consecutive blank lines exactly one blank line remains. -/
theorem claim_C7_normalize :
    (∀ raw : String,
      pyStrip (normalize_paragraphs raw) = normalize_paragraphs raw
      ∧ hasTriple (normalize_paragraphs raw).data = false
      ∧ ∀ l ∈ splitNl (normalize_paragraphs raw).data, cleanLn l = l)
    ∧ normalize_paragraphs "  a\t\tb \n\n\n\n\nc  d " = "a b\n\nc d" := by
  constructor
  · intro raw
    refine ⟨?_, ?_, ?_⟩
    · show String.mk (pyStripList (normalize_paragraphs raw).data) = normalize_paragraphs raw
      have hd : (normalize_paragraphs raw).data
          = pyStripList (collapseNl3 (joinNl ((splitNl raw.data).map cleanLn))) := rfl
      rw [hd, pyStripList_idem]
      rfl
    · show hasTriple
        (pyStripList (nlGo 0 (joinNl ((splitNl raw.data).map cleanLn)))) = false
      exact hT_pyStripList _ (hT_nlGo _ 0)
    · intro l hl
      exact cleanLn_id l (np_lines_ok raw l hl)
  · decide

/-- Witness for C7 on a concrete input: the result is strip-stable and its
first line is normalization-stable. -/
theorem claim_C7_normalize_witness :
    pyStrip (normalize_paragraphs " x \n\n\n\ny ") = normalize_paragraphs " x \n\n\n\ny "
    ∧ cleanLn "x".data = "x".data := by
  have h := claim_C7_normalize.1 " x \n\n\n\ny "
  exact ⟨h.1, h.2.2 "x".data (by decide)⟩

/-- C8: the body text of `extract_detail` is invariant under erasing the whole
content of every script/style element inside the containers (they are
decomposed before text extraction), and on a concrete container the script and
style text does not occur in the output. -/
theorem claim_C8_detail_noscript :
    (∀ cs : List HNode, extract_detail (cs.map gutTop) = extract_detail cs)
    ∧ extract_detail [demoContainer] = "Hello\nWorld"
    ∧ listHasSub "EVILJS".data (extract_detail [demoContainer]).data = false
    ∧ listHasSub "EVILCSS".data (extract_detail [demoContainer]).data = false :=
  ⟨extract_detail_gut, by decide, by decide, by decide⟩

/-- C9: `safe_filename` output contains none of the nine replaced characters
and is whitespace-trimmed; on the concrete input of the claim it produces
`a_b_c_d_.pdf`. -/
theorem claim_C9_safe_filename :
    (∀ s : String, (∀ c ∈ (safe_filename s).data, c ∉ badChars)
      ∧ pyStrip (safe_filename s) = safe_filename s)
    ∧ safe_filename "a/b:c*d?.pdf" = "a_b_c_d_.pdf" :=
  ⟨fun s => ⟨safe_noBad s, pyStrip_safe_filename s⟩, by decide⟩

/-- Witness for C9: no slash survives in a concrete sanitized name, and the
result is strip-stable. -/
theorem claim_C9_safe_filename_witness :
    ('/' ∉ (safe_filename "a/b").data)
    ∧ pyStrip (safe_filename "a/b") = safe_filename "a/b" :=
  ⟨fun h => (claim_C9_safe_filename.1 "a/b").1 '/' h (by decide),
    (claim_C9_safe_filename.1 "a/b").2⟩

/-- C10: `safe_filename` is idempotent — its output contains no replaceable
character and is already trimmed, so a second application changes nothing. -/
theorem claim_C10_safe_filename_idem (s : String) :
    safe_filename (safe_filename s) = safe_filename s :=
  safe_filename_fix s
